import Mathlib

/-!
Verification of the 0g-py-sdk storage core against its specification.

The Python sources are shallowly embedded: pure functions become Lean
functions over ℕ / List, the in-place mutations (queue manipulation in
`MerkleTree.build`, the lazy segment tree of `node_selector.insert`, the
iterator state of `FileIterator.next`) become explicit state passing, and
unbounded recursion is rendered with an explicit fuel argument together
with lemmas showing the fuel used at every call site suffices.
-/

set_option linter.unusedSectionVars false

namespace ZgStorage

open scoped List

/-! ## utils/file_utils.py -/

/-- `num_splits(total, unit)` from utils/file_utils.py: Python computes
`(total - 1) // unit + 1` with floor division on ints, which yields 0 for
`total = 0` (`-1 // unit = -1`); ℕ has no negatives so that case is spelled
out. For `total ≥ 1` the Python and ℕ computations agree. -/
def numSplits (total unit : ℕ) : ℕ :=
  if total = 0 then 0 else (total - 1) / unit + 1

/-- One `x |= x >> s` step of `next_pow2`. -/
def smearStep (v s : ℕ) : ℕ := v ||| (v >>> s)

/-- The or-shift cascade of `next_pow2` (shifts 32, 16, 8, 4, 2, 1). -/
def smear (x : ℕ) : ℕ :=
  smearStep (smearStep (smearStep (smearStep (smearStep (smearStep x 32) 16) 8) 4) 2) 1

/-- `next_pow2(input)` from utils/file_utils.py. Python runs the cascade on
`input - 1`; for `input = 0` that value is `-1`, which smears to `-1` and the
final `+ 1` gives 0, spelled out here since ℕ subtraction saturates. -/
def nextPow2 (input : ℕ) : ℕ :=
  if input = 0 then 0 else smear (input - 1) + 1

/-- `compute_padded_size(chunks)` from utils/file_utils.py, returning
`(padded_chunks, chunks_next_pow2)`. -/
def computePaddedSize (chunks : ℕ) : ℕ × ℕ :=
  if nextPow2 chunks = chunks then (nextPow2 chunks, nextPow2 chunks)
  else
    (numSplits chunks (if 16 ≤ nextPow2 chunks then nextPow2 chunks / 16 else 1) *
      (if 16 ≤ nextPow2 chunks then nextPow2 chunks / 16 else 1), nextPow2 chunks)

/-- The `while padded_chunks > 0` loop of `AbstractFile.split_nodes`
(core/file.py), with an explicit fuel argument for the halving recursion.
When `next_chunk_size` reaches 0 with chunks left Python would loop forever;
that branch (unreachable for the actual arguments, see
`splitNodesLoop_spec`) returns `[]` here. -/
def splitNodesLoop : ℕ → ℕ → ℕ → List ℕ
  | 0, _, _ => []
  | fuel + 1, paddedChunks, nextChunkSize =>
    if paddedChunks = 0 then []
    else if nextChunkSize = 0 then []
    else if nextChunkSize ≤ paddedChunks then
      nextChunkSize :: splitNodesLoop fuel (paddedChunks - nextChunkSize) (nextChunkSize / 2)
    else splitNodesLoop fuel paddedChunks (nextChunkSize / 2)

/-- `AbstractFile.split_nodes` (core/file.py) as a function of the file's
chunk count: decompose the padded chunk count greedily, starting from
`chunks_next_pow2` and halving. -/
def splitNodes (chunks : ℕ) : List ℕ :=
  splitNodesLoop ((computePaddedSize chunks).2 + 1) (computePaddedSize chunks).1
    (computePaddedSize chunks).2

/-- `AbstractFile.num_chunks` (core/file.py): chunk count of a file of
`fileSize` bytes with the 256-byte `DEFAULT_CHUNK_SIZE`. -/
def fileNumChunks (fileSize : ℕ) : ℕ := numSplits fileSize 256

/-! ### Correctness of the bit-smearing next-power-of-two -/

/-- `d`-offsets reached by a smear step: bit `i` of `smearStep v s` sees the
bits `i + d` of the original value for `d` in `dstep s D` when bit `i` of `v`
sees offsets `D`. -/
def dstep (s : ℕ) (D : List ℕ) : List ℕ := D ++ D.map (fun d => s + d)

/-- Offsets seen by the full cascade. -/
def smearOffsets : List ℕ :=
  dstep 1 (dstep 2 (dstep 4 (dstep 8 (dstep 16 (dstep 32 [0])))))

/-- `v` spreads `y` by offsets `D`: each bit of `v` is the OR of the bits of
`y` at the offsets in `D`. -/
def Spreads (v y : ℕ) (D : List ℕ) : Prop :=
  ∀ i, v.testBit i = true ↔ ∃ d ∈ D, y.testBit (i + d) = true

theorem spreads_step (v y : ℕ) (D : List ℕ) (s : ℕ) (h : Spreads v y D) :
    Spreads (smearStep v s) y (dstep s D) := by
  intro i
  unfold smearStep dstep
  rw [Nat.testBit_lor]
  constructor
  · intro hb
    rcases Bool.or_eq_true_iff.mp hb with hb | hb
    · obtain ⟨d, hd, hbit⟩ := (h i).mp hb
      exact ⟨d, List.mem_append_left _ hd, hbit⟩
    · rw [Nat.testBit_shiftRight] at hb
      obtain ⟨d, hd, hbit⟩ := (h (s + i)).mp hb
      refine ⟨s + d, List.mem_append_right _ (List.mem_map.mpr ⟨d, hd, rfl⟩), ?_⟩
      rw [show i + (s + d) = s + i + d by omega]
      exact hbit
  · rintro ⟨d, hd, hbit⟩
    rcases List.mem_append.mp hd with hd | hd
    · exact Bool.or_eq_true_iff.mpr (Or.inl ((h i).mpr ⟨d, hd, hbit⟩))
    · obtain ⟨d', hd', rfl⟩ := List.mem_map.mp hd
      refine Bool.or_eq_true_iff.mpr (Or.inr ?_)
      rw [Nat.testBit_shiftRight]
      refine (h (s + i)).mpr ⟨d', hd', ?_⟩
      rw [show s + i + d' = i + (s + d') by omega]
      exact hbit

theorem spreads_smear (y : ℕ) : Spreads (smear y) y smearOffsets := by
  have h0 : Spreads y y [0] := by
    intro i
    simp
  exact spreads_step _ _ _ 1 (spreads_step _ _ _ 2 (spreads_step _ _ _ 4
    (spreads_step _ _ _ 8 (spreads_step _ _ _ 16 (spreads_step _ _ _ 32 h0)))))

theorem smearOffsets_complete : ∀ d, d < 64 → d ∈ smearOffsets := by decide

theorem smearOffsets_bound : ∀ d ∈ smearOffsets, d < 64 := by decide

theorem testBit_log_self (y : ℕ) (hy : 0 < y) : y.testBit (Nat.log 2 y) = true := by
  have h1 : 2 ^ Nat.log 2 y ≤ y := Nat.pow_log_le_self 2 (by omega)
  have h2 : y < 2 ^ (Nat.log 2 y + 1) := Nat.lt_pow_succ_log_self (by norm_num) y
  rw [Nat.testBit_to_div_mod]
  have hdiv : y / 2 ^ Nat.log 2 y = 1 := by
    have hle : 1 ≤ y / 2 ^ Nat.log 2 y := by
      rw [Nat.le_div_iff_mul_le (Nat.two_pow_pos _)]
      omega
    have hlt : y / 2 ^ Nat.log 2 y < 2 := by
      rw [Nat.div_lt_iff_lt_mul (Nat.two_pow_pos _)]
      rw [pow_succ] at h2
      omega
    omega
  rw [hdiv]
  rfl

theorem smear_eq (y : ℕ) (hy : 0 < y) (h64 : y < 2 ^ 64) :
    smear y = 2 ^ (Nat.log 2 y + 1) - 1 := by
  have hlog : Nat.log 2 y < 64 := Nat.log_lt_of_lt_pow (by omega) h64
  apply Nat.eq_of_testBit_eq
  intro i
  have hspread := spreads_smear y i
  have hhi : y < 2 ^ (Nat.log 2 y + 1) := Nat.lt_pow_succ_log_self (by norm_num) y
  rcases Nat.lt_or_ge i (Nat.log 2 y + 1) with hi | hi
  · rw [Nat.testBit_two_pow_sub_one, decide_eq_true hi]
    refine (hspread.mpr ⟨Nat.log 2 y - i, ?_, ?_⟩)
    · exact smearOffsets_complete _ (by omega)
    · rw [show i + (Nat.log 2 y - i) = Nat.log 2 y by omega]
      exact testBit_log_self y hy
  · rw [Nat.testBit_two_pow_sub_one, decide_eq_false (by omega)]
    by_contra hb
    have hb' : (smear y).testBit i = true := by
      cases h : (smear y).testBit i
      · exact absurd h hb
      · rfl
    obtain ⟨d, _, hbit⟩ := hspread.mp hb'
    have : y.testBit (i + d) = false := by
      apply Nat.testBit_eq_false_of_lt
      calc y < 2 ^ (Nat.log 2 y + 1) := hhi
        _ ≤ 2 ^ (i + d) := Nat.pow_le_pow_right (by norm_num) (by omega)
    rw [this] at hbit
    exact Bool.false_ne_true hbit

/-- For inputs in `[1, 2^64]`, `next_pow2` returns the least power of two
that is at least the input, namely `2 ^ ⌈log₂ input⌉`. -/
theorem nextPow2_eq (x : ℕ) (h1 : 1 ≤ x) (h64 : x ≤ 2 ^ 64) :
    nextPow2 x = 2 ^ Nat.clog 2 x := by
  unfold nextPow2
  rw [if_neg (by omega)]
  rcases Nat.lt_or_ge x 2 with h | h
  · have hx : x = 1 := by omega
    subst hx
    norm_num [smear, smearStep]
  · have hy : 0 < x - 1 := by omega
    have hy64 : x - 1 < 2 ^ 64 := by omega
    rw [smear_eq _ hy hy64]
    set L := Nat.log 2 (x - 1) with hL
    have hlow : 2 ^ L ≤ x - 1 := Nat.pow_log_le_self 2 (by omega)
    have hhi : x - 1 < 2 ^ (L + 1) := Nat.lt_pow_succ_log_self (by norm_num) _
    have hclog : Nat.clog 2 x = L + 1 := by
      have hup : Nat.clog 2 x ≤ L + 1 := by
        calc Nat.clog 2 x ≤ Nat.clog 2 (2 ^ (L + 1)) :=
              Nat.clog_mono_right 2 (by omega)
          _ = L + 1 := Nat.clog_pow 2 (L + 1) (by norm_num)
      have hdown : L < Nat.clog 2 x :=
        (Nat.pow_lt_iff_lt_clog (by norm_num)).mp (by omega)
      omega
    rw [hclog]
    have : 0 < 2 ^ (L + 1) := Nat.two_pow_pos _
    omega

/-! ### C7: split_nodes produces a decreasing power-of-two decomposition -/

theorem splitNodesLoop_spec : ∀ (j : ℕ), ∀ (m fuel : ℕ), j + 2 ≤ fuel → m < 2 ^ (j + 1) →
    (splitNodesLoop fuel m (2 ^ j)).sum = m ∧
    (splitNodesLoop fuel m (2 ^ j)).Pairwise (fun a b => b < a) ∧
    (∀ x ∈ splitNodesLoop fuel m (2 ^ j), ∃ k, x = 2 ^ k) ∧
    (∀ x ∈ splitNodesLoop fuel m (2 ^ j), x ≤ 2 ^ j) := by
  intro j
  induction j with
  | zero =>
    intro m fuel hfuel hm
    obtain ⟨f, rfl⟩ : ∃ f, fuel = f + 1 := ⟨fuel - 1, by omega⟩
    interval_cases m
    · simp [splitNodesLoop]
    · obtain ⟨f', rfl⟩ : ∃ f', f = f' + 1 := ⟨f - 1, by omega⟩
      refine ⟨by simp [splitNodesLoop], by simp [splitNodesLoop], ?_, by simp [splitNodesLoop]⟩
      intro x hx
      simp [splitNodesLoop] at hx
      exact ⟨0, by omega⟩
  | succ j ih =>
    intro m fuel hfuel hm
    obtain ⟨f, rfl⟩ : ∃ f, fuel = f + 1 := ⟨fuel - 1, by omega⟩
    have hpos : 0 < 2 ^ (j + 1) := Nat.two_pow_pos _
    have hhalf : 2 ^ (j + 1) / 2 = 2 ^ j := by
      rw [pow_succ]
      exact Nat.mul_div_cancel _ (by norm_num)
    by_cases hm0 : m = 0
    · subst hm0
      simp [splitNodesLoop]
    · rw [splitNodesLoop, if_neg hm0, if_neg (by omega)]
      by_cases hle : 2 ^ (j + 1) ≤ m
      · rw [if_pos hle, hhalf]
        have hm' : m - 2 ^ (j + 1) < 2 ^ (j + 1) := by
          rw [pow_succ] at hm
          omega
        obtain ⟨hsum, hpair, hpows, hbound⟩ := ih (m - 2 ^ (j + 1)) f (by omega) hm'
        refine ⟨by rw [List.sum_cons]; omega, ?_, ?_, ?_⟩
        · refine List.Pairwise.cons ?_ hpair
          intro x hx
          have := hbound x hx
          have : 2 ^ j < 2 ^ (j + 1) := Nat.pow_lt_pow_right (by norm_num) (by omega)
          omega
        · intro x hx
          rcases List.mem_cons.mp hx with rfl | hx
          · exact ⟨j + 1, rfl⟩
          · exact hpows x hx
        · intro x hx
          rcases List.mem_cons.mp hx with rfl | hx
          · exact le_refl _
          · have := hbound x hx
            have : 2 ^ j ≤ 2 ^ (j + 1) := Nat.pow_le_pow_right (by norm_num) (by omega)
            omega
      · rw [if_neg hle, hhalf]
        obtain ⟨hsum, hpair, hpows, hbound⟩ := ih m f (by omega) (by omega)
        refine ⟨hsum, hpair, hpows, ?_⟩
        intro x hx
        have := hbound x hx
        have : 2 ^ j ≤ 2 ^ (j + 1) := Nat.pow_le_pow_right (by norm_num) (by omega)
        omega

/-- The padded chunk count never falls below the chunk count. -/
theorem computePaddedSize_ge (chunks : ℕ) : chunks ≤ (computePaddedSize chunks).1 := by
  unfold computePaddedSize
  by_cases h : nextPow2 chunks = chunks
  · simp [h]
  · rw [if_neg h]
    set mc := if 16 ≤ nextPow2 chunks then nextPow2 chunks / 16 else 1 with hmc
    simp only
    have hmc1 : 1 ≤ mc := by
      rw [hmc]
      split
      · next h16 => exact Nat.one_le_div_iff (by norm_num) |>.mpr h16
      · exact le_refl 1
    by_cases h0 : chunks = 0
    · subst h0
      simp [numSplits]
    · unfold numSplits
      rw [if_neg h0]
      have hdm := Nat.div_add_mod (chunks - 1) mc
      have hmod := Nat.mod_lt (chunks - 1) (show 0 < mc by omega)
      have h2 : ((chunks - 1) / mc + 1) * mc = mc * ((chunks - 1) / mc) + mc := by ring
      omega

/-- Helper: `2 ^ c / 16 * 16 = 2 ^ c` when `16 ≤ 2 ^ c`. -/
theorem pow16_exact (c : ℕ) (h : 16 ≤ 2 ^ c) : 2 ^ c / 16 * 16 = 2 ^ c := by
  have hc : 4 ≤ c := by
    by_contra hc
    interval_cases c <;> omega
  obtain ⟨d, rfl⟩ : ∃ d, c = d + 4 := ⟨c - 4, by omega⟩
  have : 2 ^ (d + 4) = 2 ^ d * 16 := by ring
  rw [this, Nat.mul_div_cancel _ (by norm_num)]

/-- The padded chunk count does not exceed the next power of two, for chunk
counts in the domain where `next_pow2` is exact. -/
theorem computePaddedSize_le (chunks : ℕ) (h1 : 1 ≤ chunks) (h64 : chunks ≤ 2 ^ 64) :
    (computePaddedSize chunks).1 ≤ 2 ^ Nat.clog 2 chunks ∧
    (computePaddedSize chunks).2 = 2 ^ Nat.clog 2 chunks := by
  have hP := nextPow2_eq chunks h1 h64
  have hPge : chunks ≤ 2 ^ Nat.clog 2 chunks := Nat.le_pow_clog (by norm_num) chunks
  unfold computePaddedSize
  by_cases h : nextPow2 chunks = chunks
  · rw [if_pos h]
    constructor
    · simp only
      omega
    · simp only
      omega
  · rw [if_neg h]
    refine ⟨?_, hP⟩
    simp only
    rw [hP]
    set P := 2 ^ Nat.clog 2 chunks with hPdef
    have hlt : chunks < P := by omega
    by_cases h16 : 16 ≤ P
    · rw [if_pos h16]
      have hexact : P / 16 * 16 = P := pow16_exact _ h16
      have hmc1 : 1 ≤ P / 16 := Nat.one_le_div_iff (by norm_num) |>.mpr h16
      unfold numSplits
      rw [if_neg (by omega)]
      have hq : (chunks - 1) / (P / 16) + 1 ≤ 16 := by
        have : (chunks - 1) / (P / 16) ≤ 15 := by
          rw [Nat.div_le_iff_le_mul_add_pred (by omega)]
          omega
        omega
      calc ((chunks - 1) / (P / 16) + 1) * (P / 16) ≤ 16 * (P / 16) :=
            Nat.mul_le_mul_right _ hq
        _ = P := by omega
    · rw [if_neg h16]
      unfold numSplits
      rw [if_neg (by omega)]
      omega

/-- C7 (amended to chunk counts at most `2^64`, where Python's fixed 64-bit
or-shift cascade in `next_pow2` is a correct next-power-of-two): for every
file with at least one chunk, `split_nodes` returns a strictly decreasing
sequence of powers of two summing to the padded chunk count, the pad target
`chunks_next_pow2` is the least power of two `≥ chunks`, the count is left
unchanged when it is already a power of two, and otherwise it is rounded up
to a multiple of the granularity `P/16` (granularity 1 when `P < 16`). -/
theorem splitNodes_spec (chunks : ℕ) (h1 : 1 ≤ chunks) (h64 : chunks ≤ 2 ^ 64) :
    (splitNodes chunks).sum = (computePaddedSize chunks).1 ∧
    (splitNodes chunks).Pairwise (fun a b => b < a) ∧
    (∀ x ∈ splitNodes chunks, ∃ k, x = 2 ^ k) ∧
    (computePaddedSize chunks).2 = 2 ^ Nat.clog 2 chunks ∧
    ((∃ k, chunks = 2 ^ k) → (computePaddedSize chunks).1 = chunks) ∧
    (¬ (∃ k, chunks = 2 ^ k) →
      (computePaddedSize chunks).1 =
        numSplits chunks (if 16 ≤ (computePaddedSize chunks).2 then (computePaddedSize chunks).2 / 16 else 1) *
          (if 16 ≤ (computePaddedSize chunks).2 then (computePaddedSize chunks).2 / 16 else 1)) := by
  obtain ⟨hle, hP2⟩ := computePaddedSize_le chunks h1 h64
  have hP := nextPow2_eq chunks h1 h64
  set j := Nat.clog 2 chunks with hj
  have hfuel : j + 2 ≤ 2 ^ j + 1 := by
    have := Nat.lt_two_pow j
    omega
  have hm : (computePaddedSize chunks).1 < 2 ^ (j + 1) := by
    have : 2 ^ j < 2 ^ (j + 1) := Nat.pow_lt_pow_right (by norm_num) (by omega)
    omega
  have hloop := splitNodesLoop_spec j (computePaddedSize chunks).1 (2 ^ j + 1) hfuel hm
  have hcall : splitNodes chunks =
      splitNodesLoop (2 ^ j + 1) (computePaddedSize chunks).1 (2 ^ j) := by
    unfold splitNodes
    rw [hP2]
  rw [hcall]
  obtain ⟨hsum, hpair, hpows, _⟩ := hloop
  refine ⟨hsum, hpair, hpows, hP2, ?_, ?_⟩
  · rintro ⟨k, rfl⟩
    have hfix : nextPow2 (2 ^ k) = 2 ^ k := by
      rw [hP, hj, Nat.clog_pow 2 k (by norm_num)]
    unfold computePaddedSize
    rw [if_pos hfix]
    exact hfix
  · intro hnp
    have hne : nextPow2 chunks ≠ chunks := fun hcontra =>
      hnp ⟨Nat.clog 2 chunks, by rw [← hcontra, hP, Nat.clog_pow 2 j (by norm_num)]⟩
    conv_lhs => rw [show computePaddedSize chunks =
      (numSplits chunks (if 16 ≤ nextPow2 chunks then nextPow2 chunks / 16 else 1) *
        (if 16 ≤ nextPow2 chunks then nextPow2 chunks / 16 else 1), nextPow2 chunks) from by
        unfold computePaddedSize
        rw [if_neg hne]]
    rw [hP2, hP]

/-- Witness for C7 at chunks = 5: split is `[4, 2]`, padded count 6,
pad target 8. -/
theorem splitNodes_spec_witness :
    (1 ≤ 5 ∧ 5 ≤ 2 ^ 64) ∧
    ((splitNodes 5).sum = (computePaddedSize 5).1 ∧
    (splitNodes 5).Pairwise (fun a b => b < a) ∧
    (∀ x ∈ splitNodes 5, ∃ k, x = 2 ^ k) ∧
    (computePaddedSize 5).2 = 2 ^ Nat.clog 2 5 ∧
    ((∃ k, 5 = 2 ^ k) → (computePaddedSize 5).1 = 5) ∧
    (¬ (∃ k, (5 : ℕ) = 2 ^ k) →
      (computePaddedSize 5).1 =
        numSplits 5 (if 16 ≤ (computePaddedSize 5).2 then (computePaddedSize 5).2 / 16 else 1) *
          (if 16 ≤ (computePaddedSize 5).2 then (computePaddedSize 5).2 / 16 else 1))) :=
  ⟨⟨by norm_num, by norm_num⟩, splitNodes_spec 5 (by norm_num) (by norm_num)⟩

/-- Counterexample to C7 as stated over all chunk counts: at
`chunks = 2^64 + 1` the 64-bit smear cascade of `next_pow2` produces
`2^65 - 1`, which is not a power of two, and the greedy decomposition then
emits `2^64 - 1` — not a power of two — as a node size. -/
theorem splitNodes_not_pow2_at_large :
    (2 ^ 64 - 1) ∈ splitNodes (2 ^ 64 + 1) ∧ ¬ ∃ k, (2 ^ 64 - 1 : ℕ) = 2 ^ k := by
  constructor
  · decide
  · rintro ⟨k, hk⟩
    rcases Nat.lt_or_ge k 64 with h | h
    · have : 2 ^ k ≤ 2 ^ 63 := Nat.pow_le_pow_right (by norm_num) (by omega)
      omega
    · have : 2 ^ 64 ≤ 2 ^ k := Nat.pow_le_pow_right (by norm_num) h
      omega

/-! ## Shard configurations (core/node_selector.py, core/uploader.py) -/

/-- A `{numShard, shardId}` shard config dict. -/
structure ShardConfig where
  numShard : ℕ
  shardId : ℕ
deriving DecidableEq

/-- `is_valid_config` from core/node_selector.py: `numShard` positive, a
power of two by the `n & (n - 1) == 0` test, and `shardId < numShard`. -/
def isValidConfig (c : ShardConfig) : Prop :=
  0 < c.numShard ∧ c.numShard &&& (c.numShard - 1) = 0 ∧ c.shardId < c.numShard

instance (c : ShardConfig) : Decidable (isValidConfig c) := by
  unfold isValidConfig
  infer_instance

/-- The `n & (n - 1) == 0` test of `is_valid_config` recognises exactly the
powers of two among the positive naturals. -/
theorem exists_pow_of_land (n : ℕ) (hpos : 0 < n) (h : n &&& (n - 1) = 0) :
    ∃ k, n = 2 ^ k := by
  refine ⟨Nat.log 2 n, ?_⟩
  have hlow : 2 ^ Nat.log 2 n ≤ n := Nat.pow_log_le_self 2 (by omega)
  have hhi : n < 2 ^ (Nat.log 2 n + 1) := Nat.lt_pow_succ_log_self (by norm_num) n
  by_contra hne
  have hgt : 2 ^ Nat.log 2 n < n := by omega
  have hbn : n.testBit (Nat.log 2 n) = true := testBit_log_self n hpos
  have hbn1 : (n - 1).testBit (Nat.log 2 n) = true := by
    rw [Nat.testBit_to_div_mod]
    have hd : (n - 1) / 2 ^ Nat.log 2 n = 1 := by
      have hle : 1 ≤ (n - 1) / 2 ^ Nat.log 2 n := by
        rw [Nat.le_div_iff_mul_le (Nat.two_pow_pos _)]
        omega
      have hlt : (n - 1) / 2 ^ Nat.log 2 n < 2 := by
        rw [Nat.div_lt_iff_lt_mul (Nat.two_pow_pos _)]
        rw [pow_succ] at hhi
        omega
      omega
    rw [hd]
    rfl
  have : (n &&& (n - 1)).testBit (Nat.log 2 n) = true := by
    rw [Nat.testBit_and, hbn, hbn1]
    rfl
  rw [h, Nat.zero_testBit] at this
  exact Bool.false_ne_true this

/-! ## core/uploader.py -/

/-- `Uploader.next_segment_index` (core/uploader.py). For valid configs the
value `start + numShard - 1 - shardId` is nonnegative in Python, so ℕ
subtraction agrees with the Python int arithmetic. -/
def nextSegmentIndex (config : ShardConfig) (startIndex : ℕ) : ℕ :=
  if config.numShard < 2 then startIndex
  else (startIndex + config.numShard - 1 - config.shardId) / config.numShard * config.numShard
    + config.shardId

/-- C8: for a valid shard config, `next_segment_index` returns the least
index `r ≥ start_index` congruent to `shardId` modulo `numShard` (in the
`numShard = 1` short-circuit case this is `start_index` itself). -/
theorem nextSegmentIndex_spec (config : ShardConfig) (startIndex : ℕ)
    (hv : isValidConfig config) :
    startIndex ≤ nextSegmentIndex config startIndex ∧
    nextSegmentIndex config startIndex % config.numShard = config.shardId ∧
    ∀ q, startIndex ≤ q → q % config.numShard = config.shardId →
      nextSegmentIndex config startIndex ≤ q := by
  obtain ⟨hpos, _, hsid⟩ := hv
  unfold nextSegmentIndex
  by_cases h2 : config.numShard < 2
  · rw [if_pos h2]
    have hn1 : config.numShard = 1 := by omega
    have hs0 : config.shardId = 0 := by omega
    refine ⟨le_refl _, by rw [hn1, hs0, Nat.mod_one], fun q hq _ => hq⟩
  · rw [if_neg h2]
    set n := config.numShard with hn
    set s := config.shardId with hs
    set a := startIndex + n - 1 - s with ha
    have hdm : a / n * n + a % n = a := Nat.div_add_mod' a n
    have hmod : a % n < n := Nat.mod_lt a (by omega)
    refine ⟨?_, ?_, ?_⟩
    · omega
    · rw [Nat.add_comm, Nat.add_mul_mod_self_right]
      exact Nat.mod_eq_of_lt hsid
    · intro q hq hqmod
      have hqdm : q / n * n + q % n = q := Nat.div_add_mod' q n
      have h1 : q / n * n + s = q := by rw [← hqmod]; exact hqdm
      have hle : a ≤ n * (q / n) + (n - 1) := by
        have h2 : n * (q / n) = q / n * n := Nat.mul_comm _ _
        omega
      have hdiv : a / n ≤ q / n := (Nat.div_le_iff_le_mul_add_pred (by omega : 0 < n)).mpr hle
      have hmul : a / n * n ≤ q / n * n := Nat.mul_le_mul_right n hdiv
      omega

/-- Witness for C8 at config (numShard 4, shardId 1), start index 6:
the returned index is 9. -/
theorem nextSegmentIndex_spec_witness :
    isValidConfig ⟨4, 1⟩ ∧
    (6 ≤ nextSegmentIndex ⟨4, 1⟩ 6 ∧
     nextSegmentIndex ⟨4, 1⟩ 6 % (4 : ℕ) = 1 ∧
     ∀ q, 6 ≤ q → q % (4 : ℕ) = 1 → nextSegmentIndex ⟨4, 1⟩ 6 ≤ q) :=
  ⟨by decide, nextSegmentIndex_spec ⟨4, 1⟩ 6 (by decide)⟩

/-! ## Stable insertion sort

Python's `list.sort(key=...)` is a stable ascending sort. It is modelled by
a stable insertion sort parameterised by the strict "key less than"
comparison: an element is inserted before the first element whose key is not
smaller, which reproduces Python's stability (ties keep their original
order). -/

def insertSorted {α : Type} (lt : α → α → Bool) (x : α) : List α → List α
  | [] => [x]
  | y :: ys => if lt y x then y :: insertSorted lt x ys else x :: y :: ys

def isort {α : Type} (lt : α → α → Bool) : List α → List α
  | [] => []
  | x :: xs => insertSorted lt x (isort lt xs)

theorem insertSorted_perm {α : Type} (lt : α → α → Bool) (x : α) (l : List α) :
    (insertSorted lt x l).Perm (x :: l) := by
  induction l with
  | nil => exact List.Perm.refl _
  | cons y ys ih =>
    unfold insertSorted
    by_cases h : lt y x
    · rw [if_pos h]
      calc y :: insertSorted lt x ys ~ y :: x :: ys := ih.cons y
        _ ~ x :: y :: ys := List.Perm.swap x y ys
    · rw [if_neg h]

theorem isort_perm {α : Type} (lt : α → α → Bool) (l : List α) :
    (isort lt l).Perm l := by
  induction l with
  | nil => exact List.Perm.refl _
  | cons x xs ih =>
    exact (insertSorted_perm lt x (isort lt xs)).trans (ih.cons x)

theorem insertSorted_pairwise {α : Type} (lt : α → α → Bool)
    (htrans : ∀ a b c, lt b a = false → lt c b = false → lt c a = false)
    (hasym : ∀ a b, lt a b = true → lt b a = false)
    (x : α) (l : List α) (h : l.Pairwise (fun a b => lt b a = false)) :
    (insertSorted lt x l).Pairwise (fun a b => lt b a = false) := by
  induction l with
  | nil => simp [insertSorted]
  | cons y ys ih =>
    rw [List.pairwise_cons] at h
    obtain ⟨hy, hys⟩ := h
    unfold insertSorted
    by_cases hxy : lt y x
    · rw [if_pos hxy]
      rw [List.pairwise_cons]
      refine ⟨?_, ih hys⟩
      intro b hb
      have hbmem := (insertSorted_perm lt x ys).mem_iff.mp hb
      rcases List.mem_cons.mp hbmem with rfl | hbys
      · exact hasym y b hxy
      · exact hy b hbys
    · rw [if_neg hxy]
      rw [List.pairwise_cons]
      refine ⟨?_, List.pairwise_cons.mpr ⟨hy, hys⟩⟩
      intro b hb
      rcases List.mem_cons.mp hb with rfl | hbys
      · exact Bool.eq_false_iff.mpr hxy
      · exact htrans x y b (Bool.eq_false_iff.mpr hxy) (hy b hbys)

theorem isort_pairwise {α : Type} (lt : α → α → Bool)
    (htrans : ∀ a b c, lt b a = false → lt c b = false → lt c a = false)
    (hasym : ∀ a b, lt a b = true → lt b a = false)
    (l : List α) :
    (isort lt l).Pairwise (fun a b => lt b a = false) := by
  induction l with
  | nil => simp [isort]
  | cons x xs ih => exact insertSorted_pairwise lt htrans hasym x _ ih

/-! ## C4: the round-robin merge at the end of `Uploader.split_tasks` -/

/-- The length comparison used by `upload_tasks.sort(key=lambda a: len(a))`. -/
def lenLt {α : Type} (a b : List α) : Bool := decide (a.length < b.length)

/-- Lines 521-540 of core/uploader.py: the early `[]` return for no tasks,
the ascending sort by list length, and the nested
`for task_index in range(len(upload_tasks[0])): for i in range(len(upload_tasks))`
loops with the `task_index < len(upload_tasks[i])` guard, flattened into the
returned `tasks` list. -/
def splitTasksMerge {α : Type} (uploadTasks : List (List α)) : List α :=
  if uploadTasks.length = 0 then []
  else
    (List.range ((isort lenLt uploadTasks).headD []).length).flatMap
      (fun t => (isort lenLt uploadTasks).filterMap (fun l => l[t]?))

/-- Length of the shortest per-node task list (as the head of the
length-sorted list, which is how the code accesses it). -/
def minListLen {α : Type} (L : List (List α)) : ℕ :=
  ((isort lenLt L).headD []).length

theorem flatMap_append_perm {ι α : Type} (xs : List ι) (a b : ι → List α) :
    (xs.flatMap fun t => a t ++ b t).Perm (xs.flatMap a ++ xs.flatMap b) := by
  induction xs with
  | nil => simp
  | cons x xs ih =>
    simp only [List.flatMap_cons]
    calc (a x ++ b x) ++ (xs.flatMap fun t => a t ++ b t)
        ~ (a x ++ b x) ++ (xs.flatMap a ++ xs.flatMap b) := ih.append_left _
      _ = a x ++ (b x ++ (xs.flatMap a ++ xs.flatMap b)) := by simp [List.append_assoc]
      _ ~ a x ++ (xs.flatMap a ++ (b x ++ xs.flatMap b)) :=
          (List.perm_append_comm_assoc _ _ _).append_left _
      _ = (a x ++ xs.flatMap a) ++ (b x ++ xs.flatMap b) := by simp [List.append_assoc]

theorem range_filterMap_getElem {α : Type} (l : List α) (m : ℕ) :
    (List.range m).filterMap (fun t => l[t]?) = l.take m := by
  induction m with
  | zero => simp
  | succ m ih =>
    rw [List.range_succ, List.filterMap_append, ih, List.take_succ]
    cases h : l[m]? <;> simp [List.filterMap_cons, h]

theorem flatMap_optionToList {ι α : Type} (xs : List ι) (g : ι → Option α) :
    (xs.flatMap fun t => (g t).toList) = xs.filterMap g := by
  induction xs with
  | nil => simp
  | cons x xs ih =>
    rw [List.flatMap_cons, ih, List.filterMap_cons]
    cases g x <;> simp

theorem transpose_perm {α : Type} (M : List (List α)) (m : ℕ) :
    ((List.range m).flatMap fun t => M.filterMap (fun l => l[t]?)).Perm
      (M.flatMap fun l => l.take m) := by
  induction M with
  | nil => simp
  | cons l M' ih =>
    have hstep : ∀ t : ℕ, (l :: M').filterMap (fun l => l[t]?) =
        (l[t]?).toList ++ M'.filterMap (fun l => l[t]?) := by
      intro t
      rw [List.filterMap_cons]
      cases h : l[t]? <;> simp
    calc ((List.range m).flatMap fun t => (l :: M').filterMap (fun l => l[t]?))
        ~ ((List.range m).flatMap fun t =>
            (l[t]?).toList ++ M'.filterMap (fun l => l[t]?)) := by
            rw [List.flatMap_congr (fun t _ => hstep t)]
      _ ~ (((List.range m).flatMap fun t => (l[t]?).toList) ++
          ((List.range m).flatMap fun t => M'.filterMap (fun l => l[t]?))) :=
            flatMap_append_perm _ _ _
      _ = l.take m ++ ((List.range m).flatMap fun t => M'.filterMap (fun l => l[t]?)) := by
            rw [flatMap_optionToList, range_filterMap_getElem]
      _ ~ (l.take m ++ M'.flatMap fun l => l.take m) := ih.append_left _
      _ = (l :: M').flatMap fun l => l.take m := by rw [List.flatMap_cons]

theorem lenLt_trans {α : Type} : ∀ a b c : List α,
    lenLt b a = false → lenLt c b = false → lenLt c a = false := by
  intro a b c hba hcb
  unfold lenLt at hba hcb ⊢
  simp only [decide_eq_false_iff_not] at hba hcb ⊢
  omega

theorem lenLt_asymm {α : Type} : ∀ a b : List α,
    lenLt a b = true → lenLt b a = false := by
  intro a b hab
  unfold lenLt at hab ⊢
  simp only [decide_eq_true_eq] at hab
  simp only [decide_eq_false_iff_not]
  omega

/-- C4 (amended): with `m` the length of the shortest per-node task list,
the final task list returned by `split_tasks` contains exactly the first
`m` tasks of every node's list (each exactly once, as a permutation of the
concatenated `m`-prefixes, interleaved round-robin over the lists sorted
shortest-first); tasks at positions `≥ m` in longer lists are dropped. -/
theorem splitTasksMerge_spec {α : Type} (L : List (List α)) (hne : L ≠ []) :
    (splitTasksMerge L).Perm (L.flatMap fun l => l.take (minListLen L)) ∧
    (∀ l ∈ L, minListLen L ≤ l.length) ∧
    (∃ l ∈ L, l.length = minListLen L) ∧
    (isort lenLt L).Pairwise (fun a b => a.length ≤ b.length) ∧
    (isort lenLt L).Perm L := by
  have hperm := isort_perm lenLt L
  have hpw0 := isort_pairwise lenLt lenLt_trans lenLt_asymm L
  have hpw : (isort lenLt L).Pairwise (fun a b => a.length ≤ b.length) := by
    refine hpw0.imp ?_
    intro a b h
    unfold lenLt at h
    simp only [decide_eq_false_iff_not] at h
    omega
  have hlen : (isort lenLt L).length = L.length := hperm.length_eq
  obtain ⟨h0, S, hS⟩ : ∃ h0 S, isort lenLt L = h0 :: S := by
    cases hs : isort lenLt L with
    | nil =>
      rw [hs] at hlen
      cases L with
      | nil => exact absurd rfl hne
      | cons a l => simp at hlen
    | cons a l => exact ⟨a, l, rfl⟩
  have hhead : (isort lenLt L).headD [] = h0 := by rw [hS]; rfl
  have hminmem : h0 ∈ L := hperm.mem_iff.mp (by rw [hS]; exact List.mem_cons_self _ _)
  have hmin : ∀ l ∈ L, minListLen L ≤ l.length := by
    intro l hl
    have hl' : l ∈ isort lenLt L := hperm.mem_iff.mpr hl
    rw [hS] at hl'
    unfold minListLen
    rw [hhead]
    rcases List.mem_cons.mp hl' with rfl | hlS
    · exact le_refl _
    · rw [hS] at hpw
      exact (List.pairwise_cons.mp hpw).1 l hlS
  refine ⟨?_, hmin, ?_, hpw, hperm⟩
  · unfold splitTasksMerge minListLen
    rw [if_neg (by simpa using hne)]
    calc ((List.range ((isort lenLt L).headD []).length).flatMap
          fun t => (isort lenLt L).filterMap (fun l => l[t]?))
        ~ ((isort lenLt L).flatMap fun l => l.take ((isort lenLt L).headD []).length) :=
          transpose_perm _ _
      _ ~ (L.flatMap fun l => l.take ((isort lenLt L).headD []).length) :=
          List.Perm.flatMap_right _ hperm
  · exact ⟨h0, hminmem, by unfold minListLen; rw [hhead]⟩

/-- Witness for C4's amended statement at `[[10], [20, 30]]`. -/
theorem splitTasksMerge_spec_witness :
    (([[10], [20, 30]] : List (List ℕ)) ≠ []) ∧
    ((splitTasksMerge [[10], [20, 30]]).Perm
        (([[10], [20, 30]] : List (List ℕ)).flatMap fun l =>
          l.take (minListLen [[10], [20, 30]])) ∧
      (∀ l ∈ ([[10], [20, 30]] : List (List ℕ)), minListLen [[10], [20, 30]] ≤ l.length) ∧
      (∃ l ∈ ([[10], [20, 30]] : List (List ℕ)), l.length = minListLen [[10], [20, 30]]) ∧
      (isort lenLt [[10], [20, 30]]).Pairwise (fun a b => a.length ≤ b.length) ∧
      (isort lenLt ([[10], [20, 30]] : List (List ℕ))).Perm [[10], [20, 30]]) :=
  ⟨by decide, splitTasksMerge_spec [[10], [20, 30]] (by decide)⟩

/-- Counterexample to C4 as stated: with per-node task lists `[10]` and
`[20, 30]`, the merge returns `[10, 20]` — task `30` of the second node is
dropped, so the result does not contain every task of every node's list. -/
theorem splitTasksMerge_drops_tasks :
    splitTasksMerge [[10], [20, 30]] = [10, 20] ∧
    (30 : ℕ) ∉ splitTasksMerge [[10], [20, 30]] ∧
    (30 : ℕ) ∈ ([[10], [20, 30]] : List (List ℕ)).flatten := by
  refine ⟨by decide, by decide, by decide⟩

/-! ## core/merkle.py

`LeafNode` objects form a binary tree through `left`/`right`/`parent`
pointers; hashes are stored at construction from `keccak256_hash_combine` of
the children. The pointer structure is embedded as the inductive `MTree`,
with node hashes recomputed by `treeHash` (the same pure function of the
children that `from_left_and_right` stores). The hash functions
`keccak256_hash` / `keccak256_hash_combine` are abstract parameters
`hashC` / `comb`: the claims depend only on hashes being functions of their
inputs. `math.ceil(math.log2(n))` in `calculate_proof_position` is embedded
as the exact ceiling log `ceilLog2` (double-precision rounding for
astronomically large `n` is not modelled); `math.log2(0)` raising
`ValueError` is modelled exactly, as the `.error` result of the `Except`. -/

/-- Structural ceiling base-2 logarithm (fuel-recursive so that the kernel
can evaluate it); equal to `Nat.clog 2` by `ceilLog2_eq_clog`. -/
def clog2F : ℕ → ℕ → ℕ
  | 0, _ => 0
  | fuel + 1, n => if n ≤ 1 then 0 else clog2F fuel ((n + 1) / 2) + 1

def ceilLog2 (n : ℕ) : ℕ := clog2F n n

theorem clog2F_eq (fuel n : ℕ) (h : n ≤ fuel) : clog2F fuel n = Nat.clog 2 n := by
  induction fuel generalizing n with
  | zero =>
    have : n = 0 := by omega
    subst this
    simp [clog2F]
  | succ fuel ih =>
    unfold clog2F
    by_cases h1 : n ≤ 1
    · rw [if_pos h1]
      interval_cases n <;> simp
    · rw [if_neg h1]
      have hrec : (n + 1) / 2 ≤ fuel := by omega
      rw [ih ((n + 1) / 2) hrec]
      have hstep : Nat.clog 2 n = Nat.clog 2 ((n + 2 - 1) / 2) + 1 :=
        Nat.clog_of_two_le (by norm_num) (by omega)
      rw [show (n + 2 - 1) / 2 = (n + 1) / 2 by omega] at hstep
      omega

theorem ceilLog2_eq_clog (n : ℕ) : ceilLog2 n = Nat.clog 2 n :=
  clog2F_eq n n (le_refl n)

/-- Binary hash tree: the `left`/`right` pointer structure of `LeafNode`. -/
inductive MTree (H : Type) where
  | leaf (h : H)
  | node (l r : MTree H)
deriving DecidableEq

section Merkle

variable {H : Type} [DecidableEq H] [Inhabited H]

/-- Hash stored at a node (`keccak256_hash_combine` of the children for
internal nodes, as `from_left_and_right` computes it). -/
def treeHash (comb : H → H → H) : MTree H → H
  | .leaf h => h
  | .node l r => comb (treeHash comb l) (treeHash comb r)

def numLeaves : MTree H → ℕ
  | .leaf _ => 1
  | .node l r => numLeaves l + numLeaves r

/-- The leaf hashes of a tree, left to right. -/
def leavesOf : MTree H → List H
  | .leaf h => [h]
  | .node l r => leavesOf l ++ leavesOf r

theorem numLeaves_pos (t : MTree H) : 1 ≤ numLeaves t := by
  induction t with
  | leaf h => exact le_refl _
  | node l r ihl ihr => unfold numLeaves; omega

theorem leavesOf_length (t : MTree H) : (leavesOf t).length = numLeaves t := by
  induction t with
  | leaf h => rfl
  | node l r ihl ihr => simp [leavesOf, numLeaves, ihl, ihr]

/-- One pass of adjacent pairing over the queue. This is both the initial
pairing loop of `MerkleTree.build` (leaves paired two at a time, a trailing
single leaf kept) and each round of the `while` loop: a round combines
`numNodes // 2` front pairs pushing results to the back and, when `numNodes`
is odd, rotates the leftover front element to the back — which leaves the
queue exactly `pairUp` of its previous contents. -/
def pairUp : List (MTree H) → List (MTree H)
  | [] => []
  | [x] => [x]
  | x :: y :: rest => .node x y :: pairUp rest

/-- The `while` loop of `MerkleTree.build`, with fuel (`buildTree` passes
the leaf count, which bounds the number of halving rounds). -/
def buildLoopF : ℕ → List (MTree H) → MTree H
  | 0, q => q.headD (.leaf default)
  | fuel + 1, q => if q.length ≤ 1 then q.headD (.leaf default) else buildLoopF fuel (pairUp q)

/-- `MerkleTree.build` on a list of leaf hashes: `None` for an empty leaf
sequence, otherwise the root of the queue-pairing construction. -/
def buildTree (hs : List H) : Option (MTree H) :=
  if hs.isEmpty then none else some (buildLoopF hs.length (pairUp (hs.map .leaf)))

/-- Shape produced by `build`: at every internal node the left subtree is a
power of two of leaves and carries at least as many leaves as the right.
This is exactly the shape `calculate_proof_position` assumes: the left
subtree holds `2 ^ ceil(log2 n) / 2` of the node's `n` leaves. -/
def GoodTree : MTree H → Prop
  | .leaf _ => True
  | .node l r => GoodTree l ∧ GoodTree r ∧ (∃ k, numLeaves l = 2 ^ k) ∧
      numLeaves r ≤ numLeaves l

/-- Invariant of the build queue: all entries but the last have exactly `p`
leaves (`p` a power of two, threaded separately), the last has at most `p`,
and all are well shaped. -/
def QInv : List (MTree H) → ℕ → Prop
  | [], _ => False
  | [x], p => GoodTree x ∧ numLeaves x ≤ p
  | x :: y :: rest, p => GoodTree x ∧ numLeaves x = p ∧ QInv (y :: rest) p

/-- Leaf hashes of the whole queue, in order. -/
def qLeaves (q : List (MTree H)) : List H := (q.map leavesOf).flatten

theorem pairUp_qLeaves (q : List (MTree H)) : qLeaves (pairUp q) = qLeaves q := by
  have key : ∀ n (q : List (MTree H)), q.length ≤ n → qLeaves (pairUp q) = qLeaves q := by
    intro n
    induction n with
    | zero =>
      intro q hq
      match q with
      | [] => rfl
    | succ n ih =>
      intro q hq
      match q with
      | [] => rfl
      | [x] => rfl
      | x :: y :: rest =>
        simp only [pairUp, qLeaves, List.map_cons, List.flatten_cons, leavesOf]
        have := ih rest (by simp at hq; omega)
        simp only [qLeaves] at this
        rw [this, List.append_assoc]
  exact key q.length q (le_refl _)

theorem pairUp_length (q : List (MTree H)) : (pairUp q).length = (q.length + 1) / 2 := by
  have key : ∀ n (q : List (MTree H)), q.length ≤ n → (pairUp q).length = (q.length + 1) / 2 := by
    intro n
    induction n with
    | zero =>
      intro q hq
      match q with
      | [] =>
        simp only [pairUp, List.length_nil]
    | succ n ih =>
      intro q hq
      match q with
      | [] =>
        simp only [pairUp, List.length_nil]
      | [x] =>
        simp only [pairUp, List.length_cons, List.length_nil]
      | x :: y :: rest =>
        simp only [pairUp, List.length_cons]
        rw [ih rest (by simp at hq; omega)]
        omega
  exact key q.length q (le_refl _)

theorem pairUp_ne_nil (q : List (MTree H)) (hq : q ≠ []) : pairUp q ≠ [] := by
  match q with
  | [] => exact absurd rfl hq
  | [x] => simp [pairUp]
  | x :: y :: rest => simp [pairUp]

theorem qInv_cons_of_ne (a : MTree H) (l : List (MTree H)) (p : ℕ) (hl : l ≠ []) :
    QInv (a :: l) p ↔ (GoodTree a ∧ numLeaves a = p ∧ QInv l p) := by
  match l with
  | [] => exact absurd rfl hl
  | b :: rest => exact Iff.rfl

theorem pairUp_QInv (p : ℕ) (hp : ∃ k, p = 2 ^ k) (q : List (MTree H)) (h : QInv q p) :
    QInv (pairUp q) (2 * p) := by
  have key : ∀ n (q : List (MTree H)), q.length ≤ n → QInv q p → QInv (pairUp q) (2 * p) := by
    intro n
    induction n with
    | zero =>
      intro q hq hinv
      match q with
      | [] => exact absurd hinv (by simp [QInv])
    | succ n ih =>
      intro q hq hinv
      match q with
      | [] => exact absurd hinv (by simp [QInv])
      | [x] =>
        obtain ⟨hg, hle⟩ := hinv
        exact ⟨hg, by omega⟩
      | [x, y] =>
        obtain ⟨hgx, hnx, hgy, hny⟩ := hinv
        refine ⟨⟨hgx, hgy, ⟨?_, ?_⟩⟩, ?_⟩
        · obtain ⟨k, rfl⟩ := hp
          exact ⟨k, hnx⟩
        · omega
        · show numLeaves x + numLeaves y ≤ 2 * p
          omega
      | x :: y :: z :: rest =>
        obtain ⟨hgx, hnx, hgy, hny, hinv'⟩ := hinv
        show QInv (MTree.node x y :: pairUp (z :: rest)) (2 * p)
        rw [qInv_cons_of_ne _ _ _ (pairUp_ne_nil _ (by simp))]
        refine ⟨⟨hgx, hgy, ⟨?_, ?_⟩⟩, ?_, ?_⟩
        · obtain ⟨k, rfl⟩ := hp
          exact ⟨k, hnx⟩
        · omega
        · show numLeaves x + numLeaves y = 2 * p
          omega
        · exact ih (z :: rest) (by simp at hq ⊢; omega) hinv'
  exact key q.length q (le_refl _) h

theorem buildLoopF_spec (fuel : ℕ) : ∀ (q : List (MTree H)) (p : ℕ),
    q.length ≤ fuel + 1 → (∃ k, p = 2 ^ k) → QInv q p →
    GoodTree (buildLoopF fuel q) ∧ leavesOf (buildLoopF fuel q) = qLeaves q := by
  induction fuel with
  | zero =>
    intro q p hq hp hinv
    match q with
    | [] => exact absurd hinv (by simp [QInv])
    | [x] =>
      obtain ⟨hg, _⟩ := hinv
      exact ⟨hg, by simp [buildLoopF, qLeaves]⟩
  | succ fuel ih =>
    intro q p hq hp hinv
    unfold buildLoopF
    by_cases h1 : q.length ≤ 1
    · rw [if_pos h1]
      match q with
      | [] => exact absurd hinv (by simp [QInv])
      | [x] =>
        obtain ⟨hg, _⟩ := hinv
        exact ⟨hg, by simp [qLeaves]⟩
    · rw [if_neg h1]
      have hlen : (pairUp q).length ≤ fuel + 1 := by
        rw [pairUp_length]
        omega
      obtain ⟨hg, hl⟩ := ih (pairUp q) (2 * p) hlen
        (by obtain ⟨k, rfl⟩ := hp; exact ⟨k + 1, by ring⟩)
        (pairUp_QInv p hp q hinv)
      exact ⟨hg, hl.trans (pairUp_qLeaves q)⟩

theorem qInv_map_leaf (hs : List H) (hne : hs ≠ []) : QInv (hs.map MTree.leaf) 1 := by
  induction hs with
  | nil => exact absurd rfl hne
  | cons h t ih =>
    match t with
    | [] => exact ⟨trivial, le_refl _⟩
    | h' :: t' =>
      exact ⟨trivial, rfl, ih (by simp)⟩

theorem qLeaves_map_leaf (hs : List H) : qLeaves (hs.map MTree.leaf) = hs := by
  induction hs with
  | nil => rfl
  | cons h t ih => simp only [List.map_cons, qLeaves, List.flatten_cons, leavesOf] at ih ⊢; rw [ih]; rfl

/-- What `build` produces: a well-shaped tree whose in-order leaf hashes are
exactly the input hash sequence. -/
theorem buildTree_spec (hs : List H) (t : MTree H) (hb : buildTree hs = some t) :
    GoodTree t ∧ leavesOf t = hs ∧ numLeaves t = hs.length := by
  unfold buildTree at hb
  by_cases hne : hs.isEmpty
  · rw [if_pos hne] at hb
    exact absurd hb (by simp)
  · rw [if_neg hne] at hb
    have hne' : hs ≠ [] := fun h => hne (by simp [h])
    have hlist : 1 ≤ hs.length := by
      cases hs with
      | nil => exact absurd rfl hne'
      | cons a l => simp
    have hlen : (pairUp (hs.map MTree.leaf)).length ≤ hs.length + 1 := by
      rw [pairUp_length]
      simp only [List.length_map]
      omega
    obtain ⟨hg, hl⟩ := buildLoopF_spec hs.length (pairUp (hs.map MTree.leaf)) 2 hlen
      ⟨1, rfl⟩ (pairUp_QInv 1 ⟨0, rfl⟩ _ (qInv_map_leaf hs hne'))
    have ht : t = buildLoopF hs.length (pairUp (hs.map MTree.leaf)) := by
      injection hb.symm
    subst ht
    have hleaves : leavesOf (buildLoopF hs.length (pairUp (hs.map MTree.leaf))) = hs := by
      rw [hl, pairUp_qLeaves, qLeaves_map_leaf]
    refine ⟨hg, hleaves, ?_⟩
    rw [← leavesOf_length, hleaves]

/-- C3: `build()` returns `None` exactly on the empty leaf sequence, and the
root hash is a function of the ordered leaf-hash sequence alone (the
mutation-free embedding makes the queue pairing a pure function, so two
builds from equal hash sequences yield equal root hashes). -/
theorem buildTree_none_iff_deterministic (comb : H → H → H) (hs : List H) :
    (buildTree hs = none ↔ hs = []) ∧
    (∀ t₁ t₂ : MTree H, buildTree hs = some t₁ → buildTree hs = some t₂ →
      treeHash comb t₁ = treeHash comb t₂) := by
  constructor
  · unfold buildTree
    by_cases h : hs.isEmpty
    · rw [if_pos h]
      simpa using List.isEmpty_iff.mp h
    · rw [if_neg h]
      constructor
      · intro hcontra
        exact absurd hcontra (by simp)
      · intro hcontra
        exact absurd hcontra (fun hh => h (by simp [hh]))
  · intro t₁ t₂ h₁ h₂
    rw [h₁] at h₂
    injection h₂ with h
    rw [h]

/-- Witness for C3 at the hash sequence `[5]` over `H := ℕ`. -/
theorem buildTree_none_iff_deterministic_witness :
    ((buildTree [5] = (none : Option (MTree ℕ)) ↔ ([5] : List ℕ) = []) ∧
      treeHash (fun a b => 2 * a + 3 * b) (MTree.leaf 5) =
        treeHash (fun a b => 2 * a + 3 * b) (MTree.leaf 5)) :=
  ⟨(buildTree_none_iff_deterministic (fun a b => 2 * a + 3 * b) [5]).1,
   (buildTree_none_iff_deterministic (fun a b => 2 * a + 3 * b) [5]).2
     (MTree.leaf 5) (MTree.leaf 5) rfl rfl⟩

end Merkle

/-- `ProofErrors` from core/merkle.py. -/
inductive ProofErr where
  | wrongFormat
  | rootMismatch
  | contentMismatch
  | positionMismatch
  | validationFailure
deriving DecidableEq

/-- A merkle `Proof`: the `lemma` list (here `lem`; `lemma` is reserved in
Lean) and the `path` of is-left-side booleans, both bottom-up. -/
structure ProofM (H : Type) where
  lem : List H
  path : List Bool
deriving DecidableEq

section MerkleProof

variable {H : Type} [DecidableEq H] [Inhabited H]

/-- `Proof.validate_format`. -/
def validateFormat (p : ProofM H) : Option ProofErr :=
  if p.path.length = 0 then
    if p.lem.length ≠ 1 then some .wrongFormat else none
  else if p.path.length + 2 ≠ p.lem.length then some .wrongFormat
  else none

/-- The hash-recombination fold of `Proof.validate_root`: combine the
running hash with each sibling, on the side indicated by the path bit. -/
def rcomp (comb : H → H → H) (h0 : H) (pairs : List (Bool × H)) : H :=
  List.foldl (fun h bs => if bs.1 then comb h bs.2 else comb bs.2 h) h0 pairs

/-- `Proof.validate_root`. Python indexes `lemma[0]`, `lemma[i+1]` and
`lemma[-1]`; it is only called on proofs that passed `validate_format`,
where those indices exist — `headD`/`zip`/`getLastD` agree there. -/
def validateRoot (comb : H → H → H) (p : ProofM H) : Bool :=
  decide (rcomp comb (p.lem.headD default) (p.path.zip (p.lem.drop 1)) = p.lem.getLastD default)

/-- `int(math.pow(2, math.ceil(math.log2(n))) / 2)`: the leaf count of the
left subtree assumed by `calculate_proof_position` (0 when `n = 1`, since
`int(0.5) = 0`). -/
def leftSubCount (n : ℕ) : ℕ := 2 ^ ceilLog2 n / 2

/-- The loop of `Proof.calculate_proof_position`, iterating the path from
its last entry (the top of the tree) downwards; state is
`(position, num_leaf_nodes)`. `math.log2(0)` raises `ValueError`, modelled
as `none`. -/
def calcPosGo : List Bool → ℕ × ℕ → Option (ℕ × ℕ)
  | [], st => some st
  | b :: bs, st =>
    if st.2 = 0 then none
    else if b then calcPosGo bs (st.1, leftSubCount st.2)
    else calcPosGo bs (st.1 + leftSubCount st.2, st.2 - leftSubCount st.2)

/-- `Proof.calculate_proof_position` (the Python loop runs `i` from
`len(path) - 1` down to 0, i.e. over the reversed path). -/
def calcPos (path : List Bool) (numLeafNodes : ℕ) : Option ℕ :=
  (calcPosGo path.reverse (0, numLeafNodes)).map (fun st => st.1)

/-- `Proof.validate_hash`. The `.error` result models the uncaught
`ValueError` raised by `math.log2(0)` inside the position computation;
`.ok (some e)` is an error return, `.ok none` is success. -/
def validateHashM (comb : H → H → H) (p : ProofM H) (rootHash contentHash : H)
    (position numLeafNodes : ℕ) : Except Unit (Option ProofErr) :=
  match validateFormat p with
  | some e => .ok (some e)
  | none =>
    if contentHash ≠ p.lem.headD default then .ok (some .contentMismatch)
    else if 1 < p.lem.length ∧ rootHash ≠ p.lem.getLastD default then .ok (some .rootMismatch)
    else
      match calcPos p.path numLeafNodes with
      | none => .error ()
      | some proofPosition =>
        if proofPosition ≠ position then .ok (some .positionMismatch)
        else if validateRoot comb p = false then .ok (some .validationFailure)
        else .ok none

/-- `Proof.validate`: hash the content, then `validate_hash`. -/
def validateM (hashC : List ℕ → H) (comb : H → H → H) (p : ProofM H) (rootHash : H)
    (content : List ℕ) (position numLeafNodes : ℕ) : Except Unit (Option ProofErr) :=
  validateHashM comb p rootHash (hashC content) position numLeafNodes

/-- The parent-pointer walk of `MerkleTree.proof_at` seen from the root:
the walk from leaf `i` to the root visits exactly the reversed root-to-leaf
path, pushing at each level the sibling hash and `True` when the current
node is the left child. Returns `(siblings, path)`, both bottom-up. -/
def proofPath (comb : H → H → H) : MTree H → ℕ → List H × List Bool
  | .leaf _, _ => ([], [])
  | .node l r, i =>
    if i < numLeaves l then
      ((proofPath comb l i).1 ++ [treeHash comb r], (proofPath comb l i).2 ++ [true])
    else
      ((proofPath comb r (i - numLeaves l)).1 ++ [treeHash comb l],
       (proofPath comb r (i - numLeaves l)).2 ++ [false])

/-- `MerkleTree.proof_at(i)`: `[root_hash]` with empty path for a single
leaf, otherwise leaf hash, then the siblings bottom-up, then the root. -/
def proofAt (comb : H → H → H) (t : MTree H) (i : ℕ) : ProofM H :=
  if numLeaves t = 1 then ⟨[treeHash comb t], []⟩
  else ⟨(leavesOf t).getD i default :: (proofPath comb t i).1 ++ [treeHash comb t],
        (proofPath comb t i).2⟩

theorem proofPath_length (comb : H → H → H) (t : MTree H) (i : ℕ) :
    (proofPath comb t i).1.length = (proofPath comb t i).2.length := by
  induction t generalizing i with
  | leaf h => rfl
  | node l r ihl ihr =>
    unfold proofPath
    by_cases hil : i < numLeaves l
    · rw [if_pos hil]
      simp [ihl]
    · rw [if_neg hil]
      simp [ihr]

theorem proofPath_ne_nil (comb : H → H → H) (t : MTree H) (i : ℕ)
    (h : numLeaves t ≠ 1) : (proofPath comb t i).2 ≠ [] := by
  cases t with
  | leaf h0 => exact absurd rfl h
  | node l r =>
    unfold proofPath
    by_cases hil : i < numLeaves l
    · rw [if_pos hil]
      simp
    · rw [if_neg hil]
      simp

/-- In a well-shaped internal node, `calculate_proof_position`'s
`left_side_leaf_nodes` equals the actual left-subtree leaf count. -/
theorem leftSubCount_eq (nl nr : ℕ) (hk : ∃ k, nl = 2 ^ k) (hle : nr ≤ nl) (hr : 1 ≤ nr) :
    leftSubCount (nl + nr) = nl := by
  obtain ⟨k, rfl⟩ := hk
  unfold leftSubCount
  rw [ceilLog2_eq_clog]
  have hclog : Nat.clog 2 (2 ^ k + nr) = k + 1 := by
    have hup : Nat.clog 2 (2 ^ k + nr) ≤ k + 1 := by
      calc Nat.clog 2 (2 ^ k + nr) ≤ Nat.clog 2 (2 ^ (k + 1)) := by
            apply Nat.clog_mono_right
            rw [pow_succ]
            omega
        _ = k + 1 := Nat.clog_pow 2 (k + 1) (by norm_num)
    have hdown : k < Nat.clog 2 (2 ^ k + nr) :=
      (Nat.pow_lt_iff_lt_clog (by norm_num)).mp (by omega)
    omega
  rw [hclog, pow_succ]
  omega

theorem calcPosGo_proofPath (comb : H → H → H) (t : MTree H) (hg : GoodTree t) :
    ∀ i pos, i < numLeaves t →
    ∃ nf, calcPosGo ((proofPath comb t i).2.reverse) (pos, numLeaves t) = some (pos + i, nf) := by
  induction t with
  | leaf h =>
    intro i pos hi
    have : i = 0 := by
      have := numLeaves_pos (MTree.leaf h : MTree H)
      simp [numLeaves] at hi
      omega
    subst this
    exact ⟨1, rfl⟩
  | node l r ihl ihr =>
    intro i pos hi
    obtain ⟨hgl, hgr, hk, hle⟩ := hg
    have hposl := numLeaves_pos l
    have hposr := numLeaves_pos r
    have hn0 : numLeaves (MTree.node l r) ≠ 0 := by
      simp [numLeaves]
      omega
    have hlsc : leftSubCount (numLeaves (MTree.node l r)) = numLeaves l := by
      show leftSubCount (numLeaves l + numLeaves r) = numLeaves l
      exact leftSubCount_eq _ _ hk hle hposr
    unfold proofPath
    by_cases hil : i < numLeaves l
    · rw [if_pos hil]
      simp only [List.reverse_append, List.reverse_cons, List.reverse_nil,
        List.nil_append, List.cons_append, List.singleton_append]
      obtain ⟨nf, hnf⟩ := ihl hgl i pos hil
      refine ⟨nf, ?_⟩
      unfold calcPosGo
      rw [if_neg hn0, if_pos rfl, hlsc]
      exact hnf
    · rw [if_neg hil]
      simp only [List.reverse_append, List.reverse_cons, List.reverse_nil,
        List.nil_append, List.cons_append, List.singleton_append]
      have hir : i - numLeaves l < numLeaves r := by
        simp [numLeaves] at hi
        omega
      obtain ⟨nf, hnf⟩ := ihr hgr (i - numLeaves l) (pos + numLeaves l) hir
      refine ⟨nf, ?_⟩
      unfold calcPosGo
      rw [if_neg hn0]
      simp only [Bool.false_eq_true, if_false, hlsc]
      rw [show numLeaves (MTree.node l r) - numLeaves l = numLeaves r from by
        simp [numLeaves]]
      rw [hnf]
      congr 2
      omega

theorem rcomp_proofPath (comb : H → H → H) (t : MTree H) :
    ∀ i, i < numLeaves t →
    rcomp comb ((leavesOf t).getD i default)
      ((proofPath comb t i).2.zip (proofPath comb t i).1) = treeHash comb t := by
  induction t with
  | leaf h =>
    intro i hi
    simp [numLeaves] at hi
    subst hi
    rfl
  | node l r ihl ihr =>
    intro i hi
    have hll : (leavesOf l).length = numLeaves l := leavesOf_length l
    unfold proofPath
    by_cases hil : i < numLeaves l
    · rw [if_pos hil]
      have hget : (leavesOf (MTree.node l r)).getD i default = (leavesOf l).getD i default := by
        show (leavesOf l ++ leavesOf r).getD i default = (leavesOf l).getD i default
        exact List.getD_append _ _ _ i (by omega)
      rw [hget]
      rw [List.zip_append (by rw [proofPath_length])]
      unfold rcomp
      rw [List.foldl_append]
      have := ihl i hil
      unfold rcomp at this
      rw [this]
      rfl
    · rw [if_neg hil]
      have hir : i - numLeaves l < numLeaves r := by
        simp [numLeaves] at hi
        omega
      have hget : (leavesOf (MTree.node l r)).getD i default =
          (leavesOf r).getD (i - numLeaves l) default := by
        show (leavesOf l ++ leavesOf r).getD i default = _
        rw [List.getD_append_right _ _ _ _ (by omega), hll]
      rw [hget]
      rw [List.zip_append (by rw [proofPath_length])]
      unfold rcomp
      rw [List.foldl_append]
      have := ihr (i - numLeaves l) hir
      unfold rcomp at this
      rw [this]
      rfl

/-- C1 (amended): for every merkle tree built from a non-empty sequence of
at most `2 ^ 40` content leaves and every index `i` in `[0, n)`, the proof
from `proof_at(i)` validates against the root, the `i`-th content, `i` and
`n`: `validate` succeeds, and in particular `calculate_proof_position`
reconstructs `i` and `validate_root` re-derives the root. The bound keeps
every leaf count met by the position loop at most `2 ^ 40`, where CPython's
double-precision `math.ceil(math.log2(...))` and `math.pow(2, ...)` agree
with the exact integer arithmetic of `ceilLog2` / `leftSubCount` (a
misrounding of `log2` needs its argument within a half-ulp of an integer,
hundreds of times smaller than the gap `log2(2 ^ k + 1) - k` for `k ≤ 40`,
and `pow` overflows only at exponents `≥ 1024`); beyond roughly `2 ^ 49`
leaves the claim fails, see `proofAt_float_divergence`. -/
theorem proofAt_validate (hashC : List ℕ → H) (comb : H → H → H)
    (contents : List (List ℕ)) (i : ℕ) (t : MTree H)
    (hi : i < contents.length)
    (hlen : contents.length ≤ 2 ^ 40)
    (hb : buildTree (contents.map hashC) = some t) :
    validateM hashC comb (proofAt comb t i) (treeHash comb t) (contents.getD i [])
      i contents.length = .ok none ∧
    calcPos (proofAt comb t i).path contents.length = some i ∧
    validateRoot comb (proofAt comb t i) = true := by
  obtain ⟨hg, hleaves, hnum⟩ := buildTree_spec (contents.map hashC) t hb
  have hnum' : numLeaves t = contents.length := by rw [hnum, List.length_map]
  have hhash : hashC (contents.getD i []) = (leavesOf t).getD i default := by
    rw [hleaves]
    rw [List.getD_eq_getElem contents [] hi]
    rw [List.getD_eq_getElem (List.map hashC contents) default
      (by rw [List.length_map]; exact hi)]
    rw [List.getElem_map]
  by_cases h1 : numLeaves t = 1
  · have hi0 : i = 0 := by omega
    subst hi0
    obtain ⟨h0, rfl⟩ : ∃ h0, t = MTree.leaf h0 := by
      cases t with
      | leaf h0 => exact ⟨h0, rfl⟩
      | node l r =>
        exfalso
        have := numLeaves_pos l
        have := numLeaves_pos r
        simp [numLeaves] at h1
        omega
    have hproof : proofAt comb (MTree.leaf h0) 0 = ⟨[h0], []⟩ := rfl
    have hh0 : hashC (contents.getD 0 []) = h0 := hhash
    rw [hproof]
    refine ⟨?_, by simp [calcPos, calcPosGo], by simp [validateRoot, rcomp]⟩
    unfold validateM validateHashM
    rw [hh0]
    simp [validateFormat, calcPos, calcPosGo, validateRoot, rcomp, treeHash]
  · have hn2 : 2 ≤ numLeaves t := by
      have := numLeaves_pos t
      omega
    have hpne := proofPath_ne_nil comb t i h1
    set s1 := (proofPath comb t i).1 with hs1
    set p2 := (proofPath comb t i).2 with hp2
    have hlen12 : s1.length = p2.length := proofPath_length comb t i
    have hp2len : 1 ≤ p2.length := List.length_pos.mpr hpne
    have hproof : proofAt comb t i =
        ⟨(leavesOf t).getD i default :: s1 ++ [treeHash comb t], p2⟩ := by
      unfold proofAt
      rw [if_neg h1]
    have hformat : validateFormat
        (⟨(leavesOf t).getD i default :: s1 ++ [treeHash comb t], p2⟩ : ProofM H) = none := by
      unfold validateFormat
      dsimp only
      simp only [List.length_cons, List.length_append, List.length_singleton, List.length_nil]
      rw [if_neg (by omega), if_neg (by omega)]
    have hlast : ((leavesOf t).getD i default :: s1 ++ [treeHash comb t]).getLastD default =
        treeHash comb t := by
      rw [show (leavesOf t).getD i default :: s1 ++ [treeHash comb t] =
        ((leavesOf t).getD i default :: s1) ++ [treeHash comb t] from by simp,
        List.getLastD_concat]
    have hcalc : calcPos p2 contents.length = some i := by
      unfold calcPos
      rw [← hnum']
      obtain ⟨nf, hnf⟩ := calcPosGo_proofPath comb t hg i 0 (by omega)
      rw [hp2, hnf]
      simp
    have hzip : p2.zip (s1 ++ [treeHash comb t]) = p2.zip s1 := by
      rw [show p2.zip (s1 ++ [treeHash comb t]) = (p2 ++ []).zip (s1 ++ [treeHash comb t]) from by
        rw [List.append_nil], List.zip_append hlen12.symm]
      simp
    have hroot : validateRoot comb
        (⟨(leavesOf t).getD i default :: s1 ++ [treeHash comb t], p2⟩ : ProofM H) = true := by
      show decide (rcomp comb
        (((leavesOf t).getD i default :: s1 ++ [treeHash comb t]).headD default)
        (p2.zip (((leavesOf t).getD i default :: s1 ++ [treeHash comb t]).drop 1)) =
        ((leavesOf t).getD i default :: s1 ++ [treeHash comb t]).getLastD default) = true
      rw [List.cons_append, List.headD_cons, List.drop_succ_cons, List.drop_zero, hzip,
        List.getLastD_cons, List.getLastD_concat, hs1, hp2,
        rcomp_proofPath comb t i (by omega)]
      simp
    rw [hproof]
    refine ⟨?_, hcalc, hroot⟩
    unfold validateM validateHashM
    simp only [hformat]
    have hhash' := hhash
    have hlast' := hlast
    have hroot' := hroot
    simp at hhash' hlast' hroot'
    simp [hhash', hlast', hroot', hcalc]

/-- Witness for C1 at contents `[[1],[2],[3]]`, index 1, over `H := ℕ` with
`hashC` the sum and a pairing-style combiner. -/
theorem proofAt_validate_witness :
    ((1 : ℕ) < 3) ∧
    ((3 : ℕ) ≤ 2 ^ 40) ∧
    (validateM (fun l => l.sum) (fun a b => 2 * a + 3 * b + 1)
        (proofAt (fun a b => 2 * a + 3 * b + 1)
          (MTree.node (MTree.node (MTree.leaf 1) (MTree.leaf 2)) (MTree.leaf 3)) 1)
        (treeHash (fun a b => 2 * a + 3 * b + 1)
          (MTree.node (MTree.node (MTree.leaf 1) (MTree.leaf 2)) (MTree.leaf 3)))
        ([[1], [2], [3]].getD 1 []) 1 3 = .ok none ∧
      calcPos (proofAt (fun a b => 2 * a + 3 * b + 1)
          (MTree.node (MTree.node (MTree.leaf 1) (MTree.leaf 2)) (MTree.leaf 3)) 1).path 3 =
        some 1 ∧
      validateRoot (fun a b => 2 * a + 3 * b + 1)
        (proofAt (fun a b => 2 * a + 3 * b + 1)
          (MTree.node (MTree.node (MTree.leaf 1) (MTree.leaf 2)) (MTree.leaf 3)) 1) = true) :=
  ⟨by decide, by norm_num,
   by
    have := proofAt_validate (H := ℕ) (fun l => l.sum) (fun a b => 2 * a + 3 * b + 1)
      [[1], [2], [3]] 1
      (MTree.node (MTree.node (MTree.leaf 1) (MTree.leaf 2)) (MTree.leaf 3))
      (by decide) (by norm_num) rfl
    simpa using this⟩

/-- C1 counterexample: `calculate_proof_position` evaluates
`math.ceil(math.log2(n))` in double precision. At `n = 2 ^ 52 + 1` the exact
logarithm lies strictly between `52` and `52 + 2 ^ (-49)` (first two
conjuncts); consecutive doubles around `52` are `2 ^ (-46)` apart, so every
real within `2 ^ (-47)` of `52` rounds to the double `52.0` — CPython thus
computes `math.log2(n) = 52.0` exactly and `math.ceil` yields `52`, making
the program's left-subtree size `int(math.pow(2, 52) / 2) = 2 ^ 52 / 2 =
2 ^ 51`. The exact ceiling — the model's `ceilLog2` — is `53`, so the real
left subtree holds `leftSubCount n = 2 ^ 52` leaves and the last leaf
(index `2 ^ 52`, path `[False]`) sits at position `calcPos [false] n =
2 ^ 52`, which `proof_at(2 ^ 52)` supplies, while the program reconstructs
`0 + 2 ^ 51 ≠ 2 ^ 52`: `validate` returns `POSITION_MISMATCH`, refuting the
claim's unbounded quantifier over leaf counts. -/
theorem proofAt_float_divergence :
    (52 : ℝ) < Real.logb 2 (2 ^ 52 + 1) ∧
    Real.logb 2 (2 ^ 52 + 1) < 52 + 1 / 2 ^ 49 ∧
    ceilLog2 (2 ^ 52 + 1) = 53 ∧
    leftSubCount (2 ^ 52 + 1) = 2 ^ 52 ∧
    calcPos [false] (2 ^ 52 + 1) = some (2 ^ 52) ∧
    (2 : ℕ) ^ 52 / 2 ≠ 2 ^ 52 := by
  refine ⟨?_, ?_, by decide, by decide, by decide, by norm_num⟩
  · rw [Real.lt_logb_iff_rpow_lt (by norm_num) (by positivity)]
    rw [show ((52 : ℝ)) = ((52 : ℕ) : ℝ) from by norm_num, Real.rpow_natCast]
    norm_num
  · rw [Real.logb_lt_iff_lt_rpow (by norm_num) (by positivity)]
    have hsplit : (2 : ℝ) ^ ((52 : ℝ) + 1 / 2 ^ 49) =
        2 ^ (52 : ℕ) * (2 : ℝ) ^ ((1 : ℝ) / 2 ^ 49) := by
      rw [Real.rpow_add (by norm_num)]
      rw [show ((52 : ℝ)) = ((52 : ℕ) : ℝ) from by norm_num, Real.rpow_natCast]
    rw [hsplit]
    have hexp : (1 : ℝ) + 1 / 2 ^ 49 * Real.log 2 ≤ (2 : ℝ) ^ ((1 : ℝ) / 2 ^ 49) := by
      rw [Real.rpow_def_of_pos (by norm_num)]
      calc (1 : ℝ) + 1 / 2 ^ 49 * Real.log 2 = Real.log 2 * (1 / 2 ^ 49) + 1 := by ring
        _ ≤ Real.exp (Real.log 2 * (1 / 2 ^ 49)) := Real.add_one_le_exp _
    have hlog2 := Real.log_two_gt_d9
    have h8 : (2 : ℝ) ^ (52 : ℕ) * (1 / 2 ^ 49) = 8 := by norm_num
    calc (2 : ℝ) ^ (52 : ℕ) + 1 < 2 ^ (52 : ℕ) * (1 + 1 / 2 ^ 49 * Real.log 2) := by
          nlinarith [hlog2, h8]
      _ ≤ 2 ^ (52 : ℕ) * (2 : ℝ) ^ ((1 : ℝ) / 2 ^ 49) :=
          mul_le_mul_of_nonneg_left hexp (by positivity)

theorem validateFormat_eq_wrongFormat (p : ProofM H) (e : ProofErr)
    (hf : validateFormat p = some e) : e = ProofErr.wrongFormat := by
  unfold validateFormat at hf
  by_cases h0 : p.path.length = 0
  · rw [if_pos h0] at hf
    by_cases h1 : p.lem.length ≠ 1
    · rw [if_pos h1] at hf
      simpa using hf.symm
    · rw [if_neg h1] at hf
      exact absurd hf (by simp)
  · rw [if_neg h0] at hf
    by_cases h2 : p.path.length + 2 ≠ p.lem.length
    · rw [if_pos h2] at hf
      simpa using hf.symm
    · rw [if_neg h2] at hf
      exact absurd hf (by simp)

/-- A proof with an empty path (the single-leaf shape) is never compared
against the supplied root hash: the result of `validate_hash` is the same
for every root argument. -/
theorem validateHash_root_independent (comb : H → H → H) (p : ProofM H) (ch : H)
    (pos n : ℕ) (hp : p.path = []) (root root' : H) :
    validateHashM comb p root ch pos n = validateHashM comb p root' ch pos n := by
  unfold validateHashM
  cases hf : validateFormat p with
  | some e => rfl
  | none =>
    have hlem : p.lem.length = 1 := by
      unfold validateFormat at hf
      rw [if_pos (by rw [hp]; rfl)] at hf
      by_cases h : p.lem.length ≠ 1
      · rw [if_pos h] at hf
        exact absurd hf (by simp)
      · omega
    have hroot1 : ¬(1 < p.lem.length ∧ root ≠ p.lem.getLastD default) := by
      rintro ⟨hgt, -⟩
      omega
    have hroot2 : ¬(1 < p.lem.length ∧ root' ≠ p.lem.getLastD default) := by
      rintro ⟨hgt, -⟩
      omega
    by_cases hch : ch ≠ p.lem.headD default
    · rw [if_pos hch, if_pos hch]
    · rw [if_neg hch, if_neg hch, if_neg hroot1, if_neg hroot2]

/-- C5 (amended): for leaf counts up to `2 ^ 40` — where CPython's
double-precision `math.ceil(math.log2(...))` and `math.pow(2, ...)` in the
position loop coincide with the exact arithmetic of `calcPos` (every leaf
count the loop meets stays below the `≈ 2 ^ 49` threshold at which the
rounding of `log2` can first collapse the ceiling, and far below `pow`'s
overflow at exponent `1024`) — `validate_hash` performs its checks in the
order format, content hash, root (only when the lemma has more than one
entry), position, `validate_root`, returning the first failing check's
error and success when all pass — except that when the position
reconstruction hits a zero leaf count, `math.log2(0)` raises `ValueError`
out of `validate` instead of returning an error (the `.error ()` case). A
proof with an empty path is never checked against the supplied root. -/
theorem validateHash_check_order (comb : H → H → H) (p : ProofM H) (root ch : H)
    (pos n : ℕ) (hn : n ≤ 2 ^ 40) :
    (p.path = [] → ∀ root' : H,
      validateHashM comb p root ch pos n = validateHashM comb p root' ch pos n) ∧
    (validateHashM comb p root ch pos n = .ok (some .wrongFormat) ↔ validateFormat p ≠ none) ∧
    (validateHashM comb p root ch pos n = .ok (some .contentMismatch) ↔
      validateFormat p = none ∧ ch ≠ p.lem.headD default) ∧
    (validateHashM comb p root ch pos n = .ok (some .rootMismatch) ↔
      validateFormat p = none ∧ ch = p.lem.headD default ∧
      (1 < p.lem.length ∧ root ≠ p.lem.getLastD default)) ∧
    (validateHashM comb p root ch pos n = .ok (some .positionMismatch) ↔
      validateFormat p = none ∧ ch = p.lem.headD default ∧
      ¬(1 < p.lem.length ∧ root ≠ p.lem.getLastD default) ∧
      (∃ q, calcPos p.path n = some q ∧ q ≠ pos)) ∧
    (validateHashM comb p root ch pos n = .ok (some .validationFailure) ↔
      validateFormat p = none ∧ ch = p.lem.headD default ∧
      ¬(1 < p.lem.length ∧ root ≠ p.lem.getLastD default) ∧
      calcPos p.path n = some pos ∧ validateRoot comb p = false) ∧
    (validateHashM comb p root ch pos n = .ok none ↔
      validateFormat p = none ∧ ch = p.lem.headD default ∧
      ¬(1 < p.lem.length ∧ root ≠ p.lem.getLastD default) ∧
      calcPos p.path n = some pos ∧ validateRoot comb p = true) ∧
    (validateHashM comb p root ch pos n = .error () ↔
      validateFormat p = none ∧ ch = p.lem.headD default ∧
      ¬(1 < p.lem.length ∧ root ≠ p.lem.getLastD default) ∧
      calcPos p.path n = none) := by
  refine ⟨fun hp root' => validateHash_root_independent comb p ch pos n hp root root', ?_⟩
  unfold validateHashM
  cases hf : validateFormat p with
  | some e =>
    have he := validateFormat_eq_wrongFormat p e hf
    subst he
    simp [hf]
  | none =>
    simp only [List.headD_eq_head?_getD, List.getLastD_eq_getLast?]
    by_cases hch : ch = p.lem.head?.getD default
    · by_cases hrt : 1 < p.lem.length ∧ ¬root = p.lem.getLast?.getD default
      · simp [hf, hch, hrt]
      · cases hcp : calcPos p.path n with
        | none => simp [hf, hch, hrt, hcp]
        | some q =>
          by_cases hq : q = pos
          · subst hq
            cases hvr : validateRoot comb p with
            | false => simp [hf, hch, hrt, hcp, hvr]
            | true => simp [hf, hch, hrt, hcp, hvr]
          · simp [hf, hch, hrt, hcp, hq]
    · simp [hf, hch]

/-- Witness for C5's amended statement at a concrete proof over `H := ℕ`
(including an exercise of the empty-path root-independence clause). -/
theorem validateHash_check_order_witness :
    ((2 : ℕ) ≤ 2 ^ 40) ∧
    ((((⟨[1, 2, 3], [true]⟩ : ProofM ℕ).path = [] → ∀ root' : ℕ,
      validateHashM (fun a b => 2 * a + 3 * b + 1) ⟨[1, 2, 3], [true]⟩ 3 1 0 2 =
        validateHashM (fun a b => 2 * a + 3 * b + 1) ⟨[1, 2, 3], [true]⟩ root' 1 0 2) ∧
     (validateHashM (fun a b => 2 * a + 3 * b + 1) (⟨[1, 2, 3], [true]⟩ : ProofM ℕ) 3 1 0 2 =
        .ok (some .wrongFormat) ↔ validateFormat (⟨[1, 2, 3], [true]⟩ : ProofM ℕ) ≠ none) ∧
     (validateHashM (fun a b => 2 * a + 3 * b + 1) (⟨[1, 2, 3], [true]⟩ : ProofM ℕ) 3 1 0 2 =
        .ok (some .contentMismatch) ↔ validateFormat (⟨[1, 2, 3], [true]⟩ : ProofM ℕ) = none ∧
        (1 : ℕ) ≠ (⟨[1, 2, 3], [true]⟩ : ProofM ℕ).lem.headD default) ∧
     (validateHashM (fun a b => 2 * a + 3 * b + 1) (⟨[1, 2, 3], [true]⟩ : ProofM ℕ) 3 1 0 2 =
        .ok (some .rootMismatch) ↔ validateFormat (⟨[1, 2, 3], [true]⟩ : ProofM ℕ) = none ∧
        (1 : ℕ) = (⟨[1, 2, 3], [true]⟩ : ProofM ℕ).lem.headD default ∧
        (1 < (⟨[1, 2, 3], [true]⟩ : ProofM ℕ).lem.length ∧
          (3 : ℕ) ≠ (⟨[1, 2, 3], [true]⟩ : ProofM ℕ).lem.getLastD default)) ∧
     (validateHashM (fun a b => 2 * a + 3 * b + 1) (⟨[1, 2, 3], [true]⟩ : ProofM ℕ) 3 1 0 2 =
        .ok (some .positionMismatch) ↔ validateFormat (⟨[1, 2, 3], [true]⟩ : ProofM ℕ) = none ∧
        (1 : ℕ) = (⟨[1, 2, 3], [true]⟩ : ProofM ℕ).lem.headD default ∧
        ¬(1 < (⟨[1, 2, 3], [true]⟩ : ProofM ℕ).lem.length ∧
          (3 : ℕ) ≠ (⟨[1, 2, 3], [true]⟩ : ProofM ℕ).lem.getLastD default) ∧
        (∃ q, calcPos (⟨[1, 2, 3], [true]⟩ : ProofM ℕ).path 2 = some q ∧ q ≠ 0)) ∧
     (validateHashM (fun a b => 2 * a + 3 * b + 1) (⟨[1, 2, 3], [true]⟩ : ProofM ℕ) 3 1 0 2 =
        .ok (some .validationFailure) ↔ validateFormat (⟨[1, 2, 3], [true]⟩ : ProofM ℕ) = none ∧
        (1 : ℕ) = (⟨[1, 2, 3], [true]⟩ : ProofM ℕ).lem.headD default ∧
        ¬(1 < (⟨[1, 2, 3], [true]⟩ : ProofM ℕ).lem.length ∧
          (3 : ℕ) ≠ (⟨[1, 2, 3], [true]⟩ : ProofM ℕ).lem.getLastD default) ∧
        calcPos (⟨[1, 2, 3], [true]⟩ : ProofM ℕ).path 2 = some 0 ∧
        validateRoot (fun a b => 2 * a + 3 * b + 1) (⟨[1, 2, 3], [true]⟩ : ProofM ℕ) = false) ∧
     (validateHashM (fun a b => 2 * a + 3 * b + 1) (⟨[1, 2, 3], [true]⟩ : ProofM ℕ) 3 1 0 2 =
        .ok none ↔ validateFormat (⟨[1, 2, 3], [true]⟩ : ProofM ℕ) = none ∧
        (1 : ℕ) = (⟨[1, 2, 3], [true]⟩ : ProofM ℕ).lem.headD default ∧
        ¬(1 < (⟨[1, 2, 3], [true]⟩ : ProofM ℕ).lem.length ∧
          (3 : ℕ) ≠ (⟨[1, 2, 3], [true]⟩ : ProofM ℕ).lem.getLastD default) ∧
        calcPos (⟨[1, 2, 3], [true]⟩ : ProofM ℕ).path 2 = some 0 ∧
        validateRoot (fun a b => 2 * a + 3 * b + 1) (⟨[1, 2, 3], [true]⟩ : ProofM ℕ) = true) ∧
     (validateHashM (fun a b => 2 * a + 3 * b + 1) (⟨[1, 2, 3], [true]⟩ : ProofM ℕ) 3 1 0 2 =
        .error () ↔ validateFormat (⟨[1, 2, 3], [true]⟩ : ProofM ℕ) = none ∧
        (1 : ℕ) = (⟨[1, 2, 3], [true]⟩ : ProofM ℕ).lem.headD default ∧
        ¬(1 < (⟨[1, 2, 3], [true]⟩ : ProofM ℕ).lem.length ∧
          (3 : ℕ) ≠ (⟨[1, 2, 3], [true]⟩ : ProofM ℕ).lem.getLastD default) ∧
        calcPos (⟨[1, 2, 3], [true]⟩ : ProofM ℕ).path 2 = none)) ∧
    validateHashM (fun a b => 2 * a + 3 * b + 1) (⟨[7], []⟩ : ProofM ℕ) 3 1 0 1 =
      validateHashM (fun a b => 2 * a + 3 * b + 1) (⟨[7], []⟩ : ProofM ℕ) 9 1 0 1) :=
  ⟨by norm_num,
   validateHash_check_order (fun a b => 2 * a + 3 * b + 1) ⟨[1, 2, 3], [true]⟩ 3 1 0 2
     (by norm_num),
   (validateHash_check_order (fun a b => 2 * a + 3 * b + 1)
     (⟨[7], []⟩ : ProofM ℕ) 3 1 0 1 (by norm_num)).1 rfl 9⟩

/-- Counterexample to C5 as stated: with a well-formatted proof, matching
content and root, but leaf count 0, `validate` neither returns an error code
nor succeeds — `calculate_proof_position` evaluates `math.log2(0)`, which
raises `ValueError` (the `.error ()` result), instead of returning the
position-mismatch error the claimed check order prescribes. -/
theorem validateHash_crashes_on_zero_leaves :
    validateHashM (fun a b : ℕ => 2 * a + 3 * b + 1) (⟨[1, 2, 3], [true]⟩ : ProofM ℕ)
      3 1 5 0 = .error () := rfl

end MerkleProof

/-! ## core/file.py: FileIterator / MemIterator

The iterator state (`buf`, `buf_size`, `offset`) is threaded explicitly;
`next()` returns `(ok, err)` together with the new state. The constructor's
`raise` on a misaligned batch and `read_from_file`'s `raise` on a bad start
offset are modelled as `Option`/error results. Bytes are ℕ. -/

structure MemIter where
  dataArray : List ℕ
  fileSize : ℕ
  paddedSize : ℕ
  batchSize : ℕ
  buf : List ℕ
  bufSize : ℕ
  offset : ℕ
deriving DecidableEq

/-- `MemIterator.__init__` (via the `FileIterator` base constructor) with
`DEFAULT_CHUNK_SIZE = 256`: `none` models the alignment `ValueError`. -/
def mkMemIter (data : List ℕ) (fileSize offset batch : ℕ) (flowPadding : Bool) :
    Option MemIter :=
  if 0 < batch % 256 then none
  else some
    { dataArray := data
      fileSize := fileSize
      paddedSize :=
        if flowPadding then (computePaddedSize (numSplits fileSize 256)).1 * 256
        else numSplits fileSize 256 * 256
      batchSize := batch
      buf := List.replicate batch 0
      bufSize := 0
      offset := offset }

/-- `FileIterator.padding_zeros`: write `len` zero bytes at `buf[bufSize:]`
and advance `buf_size` and `offset`. -/
def paddingZeros (it : MemIter) (len : ℕ) : MemIter :=
  { it with
    buf := it.buf.take it.bufSize ++ List.replicate len 0 ++ it.buf.drop (it.bufSize + len)
    bufSize := it.bufSize + len
    offset := it.offset + len }

/-- `MemIterator.read_from_file`: slice `data[start:min(end, fileSize)]`
into a fresh batch-sized zero buffer; `none` models the `ValueError` for
`start ≥ fileSize` (ℕ rules out `start < 0`). -/
def memReadFromFile (it : MemIter) (start endPos : ℕ) : Option (ℕ × List ℕ) :=
  if it.fileSize ≤ start then none
  else
    some (((it.dataArray.drop start).take (min endPos it.fileSize - start)).length,
      (it.dataArray.drop start).take (min endPos it.fileSize - start) ++
        List.replicate (it.batchSize -
          ((it.dataArray.drop start).take (min endPos it.fileSize - start)).length) 0)

/-- `FileIterator.next`: `(ok, err)` plus the new state. The unreachable
`raise` for `n > expected_buf_size` is modelled as an error result. -/
def nextIt (it : MemIter) : (Bool × Option Unit) × MemIter :=
  if it.paddedSize ≤ it.offset then ((false, none), it)
  else
    let expectedBufSize :=
      if it.batchSize ≤ it.paddedSize - it.offset then it.batchSize
      else it.paddedSize - it.offset
    let it1 : MemIter := { it with bufSize := 0 }
    if it.fileSize ≤ it1.offset then ((true, none), paddingZeros it1 expectedBufSize)
    else
      match memReadFromFile it1 it1.offset (it1.offset + it1.batchSize) with
      | none => ((false, some ()), it1)
      | some nb =>
        let it2 : MemIter :=
          { it1 with buf := nb.2, bufSize := nb.1, offset := it1.offset + nb.1 }
        if nb.1 = expectedBufSize then ((true, none), it2)
        else if expectedBufSize < nb.1 then ((false, some ()), it2)
        else ((true, none), paddingZeros it2 (expectedBufSize - nb.1))

/-- `FileIterator.current`: the filled prefix `buf[0:buf_size]`. -/
def currentIt (it : MemIter) : List ℕ := it.buf.take it.bufSize

/-- The `while True: ok, err = iter.next(); if not ok: break; … current()`
driver loop (`AbstractFile.merkle_tree`), collecting the buffers. -/
def iterRun : ℕ → MemIter → List (List ℕ)
  | 0, _ => []
  | fuel + 1, it =>
    match nextIt it with
    | ((true, _), it') => currentIt it' :: iterRun fuel it'
    | ((false, _), _) => []

/-- `l` truncated or zero-padded to length `n`. -/
def padZeros (l : List ℕ) (n : ℕ) : List ℕ :=
  l.take n ++ List.replicate (n - l.length) 0

/-- Well-formedness of iterator states reachable from the constructor. -/
def IterWF (it : MemIter) : Prop :=
  it.fileSize = it.dataArray.length ∧ it.fileSize ≤ it.paddedSize ∧ 0 < it.batchSize

theorem numSplits_mul_ge (total unit : ℕ) (hu : 0 < unit) :
    total ≤ numSplits total unit * unit := by
  unfold numSplits
  by_cases h : total = 0
  · simp [h]
  · rw [if_neg h]
    have hdm := Nat.div_add_mod (total - 1) unit
    have hmod := Nat.mod_lt (total - 1) hu
    have h2 : ((total - 1) / unit + 1) * unit = unit * ((total - 1) / unit) + unit := by ring
    omega

theorem padZeros_split (l : List ℕ) (e n : ℕ) (he : e ≤ n) :
    padZeros l e ++ padZeros (l.drop e) (n - e) = padZeros l n := by
  unfold padZeros
  rw [List.length_drop]
  rcases le_or_lt e l.length with hel | hel
  · rw [show e - l.length = 0 by omega, List.replicate_zero, List.append_nil]
    rw [show (n - e) - (l.length - e) = n - l.length by omega]
    rw [← List.append_assoc, ← List.take_add]
    rw [show e + (n - e) = n by omega]
  · rw [List.drop_eq_nil_of_le (le_of_lt hel)]
    simp only [List.take_nil, List.nil_append]
    rw [List.take_of_length_le (le_of_lt hel), List.take_of_length_le (by omega)]
    rw [List.append_assoc, ← List.replicate_add]
    rw [show e - l.length + (n - e - (l.length - e)) = n - l.length by omega]

theorem nextIt_false_iff (it : MemIter) :
    (nextIt it).1 = (false, (none : Option Unit)) ↔ it.paddedSize ≤ it.offset := by
  unfold nextIt
  by_cases h : it.paddedSize ≤ it.offset
  · rw [if_pos h]
    simp [h]
  · rw [if_neg h]
    dsimp only
    by_cases h2 : it.fileSize ≤ it.offset
    · rw [if_pos h2]
      simp [h]
    · rw [if_neg h2]
      have hread : memReadFromFile { it with bufSize := 0 } it.offset
          (it.offset + it.batchSize) ≠ none := by
        unfold memReadFromFile
        dsimp only
        rw [if_neg (by omega)]
        simp
      cases hr : memReadFromFile { it with bufSize := 0 } it.offset
          (it.offset + it.batchSize) with
      | none => exact absurd hr hread
      | some nb =>
        dsimp only
        by_cases he : nb.1 = (if it.batchSize ≤ it.paddedSize - it.offset then it.batchSize
            else it.paddedSize - it.offset)
        · rw [if_pos he]
          simp [h]
        · rw [if_neg he]
          by_cases hgt : (if it.batchSize ≤ it.paddedSize - it.offset then it.batchSize
              else it.paddedSize - it.offset) < nb.1
          · rw [if_pos hgt]
            simp [h]
          · rw [if_neg hgt]
            simp [h]

theorem nextIt_padding (it : MemIter) (h2 : it.fileSize ≤ it.offset)
    (hlt : it.offset < it.paddedSize) :
    (nextIt it).1 = (true, none) ∧
    currentIt (nextIt it).2 =
      List.replicate (min it.batchSize (it.paddedSize - it.offset)) 0 ∧
    (∀ d, nextIt { it with dataArray := d } =
      ((nextIt it).1, { (nextIt it).2 with dataArray := d })) := by
  have hE : (if it.batchSize ≤ it.paddedSize - it.offset then it.batchSize
      else it.paddedSize - it.offset) = min it.batchSize (it.paddedSize - it.offset) := by
    split <;> omega
  have hnext : nextIt it = ((true, none),
      paddingZeros { it with bufSize := 0 } (min it.batchSize (it.paddedSize - it.offset))) := by
    unfold nextIt
    rw [if_neg (by omega)]
    dsimp only
    rw [hE, if_pos h2]
  refine ⟨by rw [hnext], ?_, ?_⟩
  · rw [hnext]
    unfold paddingZeros currentIt
    dsimp only
    simp only [List.take_zero, List.nil_append, Nat.zero_add]
    rw [List.take_append_eq_append_take, List.length_replicate, Nat.sub_self,
      List.take_zero, List.append_nil, List.take_replicate, Nat.min_self]
  · intro d
    have hnext' : nextIt { it with dataArray := d } = ((true, none),
        paddingZeros { it with dataArray := d, bufSize := 0 }
          (min it.batchSize (it.paddedSize - it.offset))) := by
      unfold nextIt
      rw [if_neg (by dsimp only; omega)]
      dsimp only
      rw [hE, if_pos (by omega)]
    rw [hnext, hnext']
    unfold paddingZeros
    rfl

/-- One successful `next()` call from any well-formed state below
`padded_size`: returns `(True, None)`, fills the buffer to exactly
`min(batch, padded - offset)` bytes, and `current()` is exactly the source
bytes at `[offset, …)` zero-padded to that length. -/
theorem nextIt_step (it : MemIter) (hwf : IterWF it) (hlt : it.offset < it.paddedSize) :
    (nextIt it).1 = (true, none) ∧
    (nextIt it).2.bufSize = min it.batchSize (it.paddedSize - it.offset) ∧
    currentIt (nextIt it).2 =
      padZeros (it.dataArray.drop it.offset) (min it.batchSize (it.paddedSize - it.offset)) ∧
    (nextIt it).2.offset = it.offset + min it.batchSize (it.paddedSize - it.offset) ∧
    (nextIt it).2.dataArray = it.dataArray ∧
    (nextIt it).2.fileSize = it.fileSize ∧
    (nextIt it).2.paddedSize = it.paddedSize ∧
    (nextIt it).2.batchSize = it.batchSize := by
  obtain ⟨hda, hfp, hbpos⟩ := hwf
  have hE : (if it.batchSize ≤ it.paddedSize - it.offset then it.batchSize
      else it.paddedSize - it.offset) = min it.batchSize (it.paddedSize - it.offset) := by
    split <;> omega
  set E := min it.batchSize (it.paddedSize - it.offset) with hEdef
  by_cases h2 : it.fileSize ≤ it.offset
  · have hnext : nextIt it = ((true, none), paddingZeros { it with bufSize := 0 } E) := by
      unfold nextIt
      rw [if_neg (by omega)]
      dsimp only
      rw [hE, if_pos h2]
    rw [hnext]
    unfold paddingZeros currentIt
    dsimp only
    refine ⟨rfl, by omega, ?_, by omega, rfl, rfl, rfl, rfl⟩
    simp only [List.take_zero, List.nil_append, Nat.zero_add]
    rw [List.take_append_eq_append_take, List.length_replicate, Nat.sub_self,
      List.take_zero, List.append_nil, List.take_replicate, Nat.min_self]
    rw [List.drop_eq_nil_of_le (by omega)]
    unfold padZeros
    simp
  · push_neg at h2
    set L := it.dataArray.drop it.offset with hLdef
    have hLlen : L.length = it.fileSize - it.offset := by
      rw [hLdef, List.length_drop, hda]
    set e := min (it.offset + it.batchSize) it.fileSize with hedef
    set n' := e - it.offset with hn'def
    set slice := L.take n' with hslicedef
    have hslen : slice.length = n' := by
      rw [hslicedef, List.length_take]
      omega
    have hn'E : n' ≤ E := by omega
    have hread : memReadFromFile { it with bufSize := 0 } it.offset
        (it.offset + it.batchSize) =
        some (n', slice ++ List.replicate (it.batchSize - n') 0) := by
      unfold memReadFromFile
      dsimp only
      rw [if_neg (by omega)]
      rw [show ({ it with bufSize := 0 } : MemIter).dataArray.drop it.offset = L from rfl]
      rw [← hedef, ← hn'def, ← hslicedef, hslen]
    set buffer := slice ++ List.replicate (it.batchSize - n') 0 with hbufdef
    have hnext1 : nextIt it =
        (if n' = E then
          ((true, none), ({ it with buf := buffer, bufSize := n', offset := it.offset + n' } : MemIter))
        else if E < n' then
          ((false, some ()), ({ it with buf := buffer, bufSize := n', offset := it.offset + n' } : MemIter))
        else ((true, none),
          paddingZeros ({ it with buf := buffer, bufSize := n', offset := it.offset + n' } : MemIter)
            (E - n'))) := by
      unfold nextIt
      rw [if_neg (by omega)]
      dsimp only
      rw [hE, if_neg (by omega), hread]
    by_cases hcase : n' = E
    · have hEL : E ≤ L.length := by omega
      rw [hnext1, if_pos hcase]
      refine ⟨rfl, by dsimp only; omega, ?_, by dsimp only; omega, rfl, rfl, rfl, rfl⟩
      unfold currentIt
      dsimp only
      rw [List.take_append_eq_append_take, hslen, Nat.sub_self, List.take_zero,
        List.append_nil, show slice.take n' = slice from by
          rw [List.take_of_length_le (by omega)]]
      unfold padZeros
      rw [show E - L.length = 0 by omega, List.replicate_zero, List.append_nil]
      rw [hslicedef, hcase]
    · rw [hnext1, if_neg hcase, if_neg (by omega)]
      have hn'L : n' = L.length := by omega
      refine ⟨rfl, ?_, ?_, ?_, rfl, rfl, rfl, rfl⟩
      · unfold paddingZeros
        dsimp only
        omega
      · unfold paddingZeros currentIt
        dsimp only
        rw [List.take_append_eq_append_take, List.take_append_eq_append_take]
        have htaken : List.take n' buffer = slice := by
          rw [hbufdef, List.take_append_eq_append_take, hslen, Nat.sub_self,
            List.take_zero, List.append_nil, List.take_of_length_le (le_of_eq hslen)]
        rw [htaken, hslen, show n' + (E - n') = E from by omega]
        rw [show slice.take E = slice from List.take_of_length_le (by omega)]
        have hlenbuf : (slice ++ List.replicate (E - n') 0).length = E := by
          rw [List.length_append, hslen, List.length_replicate]
          omega
        rw [hlenbuf, Nat.sub_self, List.take_zero, List.append_nil]
        rw [List.take_replicate, show min (E - n') (E - n') = E - n' from Nat.min_self _]
        unfold padZeros
        rw [show L.take E = L from List.take_of_length_le (by omega),
          show slice = L from by rw [hslicedef, hn'L, List.take_length],
          show E - L.length = E - n' from by omega]
      · unfold paddingZeros
        dsimp only
        omega

theorem iterRun_flatten (fuel : ℕ) : ∀ it : MemIter, IterWF it →
    it.paddedSize ≤ it.offset + fuel →
    (iterRun fuel it).flatten =
      padZeros (it.dataArray.drop it.offset) (it.paddedSize - it.offset) := by
  induction fuel with
  | zero =>
    intro it hwf hfuel
    unfold iterRun padZeros
    rw [show it.paddedSize - it.offset = 0 by omega]
    simp
  | succ fuel ih =>
    intro it hwf hfuel
    by_cases h : it.paddedSize ≤ it.offset
    · have hfalse : nextIt it = ((false, none), it) := by
        unfold nextIt
        rw [if_pos h]
      unfold iterRun
      rw [hfalse]
      unfold padZeros
      rw [show it.paddedSize - it.offset = 0 by omega]
      simp
    · obtain ⟨hok, hbsz, hcur, hoff, hdat, hfs, hps, hbs⟩ :=
        nextIt_step it hwf (by omega)
      obtain ⟨hda, hfp, hbpos⟩ := hwf
      have hsplit : nextIt it = ((true, none), (nextIt it).2) := by
        rw [← hok]
      have hstep : iterRun (fuel + 1) it = currentIt (nextIt it).2 :: iterRun fuel (nextIt it).2 := by
        conv_lhs => rw [iterRun]
        rw [hsplit]
      set E := min it.batchSize (it.paddedSize - it.offset) with hEdef
      have hE1 : 1 ≤ E := by omega
      have hwf' : IterWF (nextIt it).2 := by
        refine ⟨?_, ?_, ?_⟩
        · rw [hfs, hdat, hda]
        · rw [hfs, hps]
          exact hfp
        · rw [hbs]
          exact hbpos
      have hrec := ih (nextIt it).2 hwf' (by rw [hps, hoff]; omega)
      rw [hstep, List.flatten_cons, hcur, hrec, hps, hdat, hoff]
      rw [show it.dataArray.drop (it.offset + E) = (it.dataArray.drop it.offset).drop E from by
        rw [List.drop_drop, Nat.add_comm]]
      rw [show it.paddedSize - (it.offset + E) = (it.paddedSize - it.offset) - E from by omega]
      exact padZeros_split _ _ _ (by omega)

/-- C6: behaviour of `MemIterator` started at offset 0 with flow padding.
(1) `next()` returns `(False, None)` exactly when the offset has reached
`padded_size`; (2) in the pure-padding region `[fileSize, paddedSize)` it
fills the buffer with zeros without touching the source (the result is
independent of the data array); (3) after each successful `next()`,
`current()` is exactly the filled prefix — the `min(batch, padded - offset)`
source bytes at the offset, zero-padded; and the concatenation of all
buffers over a full iteration is the source bytes followed by zeros up to
`padded_size`. -/
theorem memIterator_spec (data : List ℕ) (batch : ℕ) (it0 : MemIter)
    (hb : 0 < batch)
    (hmk : mkMemIter data data.length 0 batch true = some it0) :
    (∀ it : MemIter, (nextIt it).1 = (false, (none : Option Unit)) ↔
      it.paddedSize ≤ it.offset) ∧
    (∀ it : MemIter, it.fileSize ≤ it.offset → it.offset < it.paddedSize →
      (nextIt it).1 = (true, none) ∧
      currentIt (nextIt it).2 =
        List.replicate (min it.batchSize (it.paddedSize - it.offset)) 0 ∧
      ∀ d, nextIt { it with dataArray := d } =
        ((nextIt it).1, { (nextIt it).2 with dataArray := d })) ∧
    (∀ it : MemIter, IterWF it → it.offset < it.paddedSize →
      (nextIt it).1 = (true, none) ∧
      (nextIt it).2.bufSize = min it.batchSize (it.paddedSize - it.offset) ∧
      currentIt (nextIt it).2 =
        padZeros (it.dataArray.drop it.offset)
          (min it.batchSize (it.paddedSize - it.offset))) ∧
    (iterRun it0.paddedSize it0).flatten =
      data ++ List.replicate (it0.paddedSize - data.length) 0 := by
  have hit0 : it0 = { dataArray := data, fileSize := data.length, paddedSize := (computePaddedSize (numSplits data.length 256)).1 * 256, batchSize := batch, buf := List.replicate batch 0, bufSize := 0, offset := 0 } := by
    unfold mkMemIter at hmk
    by_cases hal : 0 < batch % 256
    · rw [if_pos hal] at hmk
      exact absurd hmk (by simp)
    · rw [if_neg hal] at hmk
      injection hmk with h
      rw [← h]
      rfl
  have hpad : data.length ≤ it0.paddedSize := by
    rw [hit0]
    calc data.length ≤ numSplits data.length 256 * 256 :=
          numSplits_mul_ge _ _ (by norm_num)
      _ ≤ (computePaddedSize (numSplits data.length 256)).1 * 256 :=
          Nat.mul_le_mul_right _ (computePaddedSize_ge _)
  have hwf0 : IterWF it0 := by
    rw [hit0]
    exact ⟨rfl, by rw [hit0] at hpad; exact hpad, hb⟩
  refine ⟨nextIt_false_iff, fun it h2 hlt => nextIt_padding it h2 hlt, ?_, ?_⟩
  · intro it hwf hlt
    obtain ⟨hok, hbsz, hcur, -⟩ := nextIt_step it hwf hlt
    exact ⟨hok, hbsz, hcur⟩
  · have := iterRun_flatten it0.paddedSize it0 hwf0 (by
      have : it0.offset = 0 := by rw [hit0]
      omega)
    rw [this]
    have hoff0 : it0.offset = 0 := by rw [hit0]
    have hdat0 : it0.dataArray = data := by rw [hit0]
    rw [hoff0, hdat0, List.drop_zero, Nat.sub_zero]
    unfold padZeros
    rw [List.take_of_length_le hpad]

/-- Witness for C6 at `data = [1,2,3]`, `batch = 256` (one chunk, padded
size 256). -/
theorem memIterator_spec_witness :
    ((0 : ℕ) < 256) ∧
    (mkMemIter [1, 2, 3] 3 0 256 true = some { dataArray := [1, 2, 3], fileSize := 3, paddedSize := 256, batchSize := 256, buf := List.replicate 256 0, bufSize := 0, offset := 0 }) ∧
    (iterRun (256 : ℕ) { dataArray := [1, 2, 3], fileSize := 3, paddedSize := 256, batchSize := 256, buf := List.replicate 256 0, bufSize := 0, offset := 0 }).flatten =
      [1, 2, 3] ++ List.replicate (256 - 3) 0 := by
  refine ⟨by norm_num, by rfl, ?_⟩
  have := memIterator_spec [1, 2, 3] 256 { dataArray := [1, 2, 3], fileSize := 3, paddedSize := 256, batchSize := 256, buf := List.replicate 256 0, bufSize := 0, offset := 0 } (by norm_num) (by rfl)
  exact this.2.2.2

/-! ## Node selection (core/node_selector.py)

`select_nodes` sorts the candidate nodes in place by `(numShard, shardId)`,
then scans them, offering each to a lazily materialised segment tree
(`SegmentTreeNode` / `pushdown` / `insert`); a candidate is accepted when the
minimum replica count over its congruence class is still below the target,
and the scan stops as soon as the root's replica count reaches the target. -/

/-- A sharded-node dict `{url, config, latency, since}` as handled by
`select_nodes` and `check_replica`. -/
structure SNode where
  url : String
  config : ShardConfig
  latency : ℕ
  since : ℕ
deriving DecidableEq

/-- The in-place sort key of `select_nodes`: ascending lexicographic
`(numShard, shardId)`. -/
def lexLt (a b : SNode) : Bool :=
  decide (a.config.numShard < b.config.numShard ∨
    (a.config.numShard = b.config.numShard ∧ a.config.shardId < b.config.shardId))

/-- `SegmentTreeNode`: `leafT` is a node whose `childs` is `None`, `nodeT` a
node with its two children; the numeric fields are `num_shard`, `replica`,
`lazy_tags`. -/
inductive SegT : Type where
  | leafT (numShard replica lazyTags : ℕ)
  | nodeT (numShard replica lazyTags : ℕ) (c0 c1 : SegT)
deriving DecidableEq

def SegT.m : SegT → ℕ
  | .leafT a _ _ => a
  | .nodeT a _ _ _ _ => a

def SegT.rep : SegT → ℕ
  | .leafT _ a _ => a
  | .nodeT _ a _ _ _ => a

def SegT.lz : SegT → ℕ
  | .leafT _ _ a => a
  | .nodeT _ _ a _ _ => a

/-- The `+= lazy_tags` update that `pushdown` applies to each child. -/
def bumpT (k : ℕ) : SegT → SegT
  | .leafT a rep lz => .leafT a (rep + k) (lz + k)
  | .nodeT a rep lz c0 c1 => .nodeT a (rep + k) (lz + k) c0 c1

/-- `pushdown` from node_selector.py: materialise the two children (with
doubled `num_shard`) when absent, add the node's lazy tag to both children's
`replica` and `lazy_tags`, and clear the node's lazy tag. -/
def pushdownT : SegT → SegT
  | .leafT a rep lz => .nodeT a rep 0 (.leafT (2 * a) lz lz) (.leafT (2 * a) lz lz)
  | .nodeT a rep lz c0 c1 => .nodeT a rep 0 (bumpT lz c0) (bumpT lz c1)

def SegT.child0 : SegT → SegT
  | .leafT a rep lz => .leafT a rep lz
  | .nodeT _ _ _ c0 _ => c0

def SegT.child1 : SegT → SegT
  | .leafT a rep lz => .leafT a rep lz
  | .nodeT _ _ _ _ c1 => c1

/-- The `replica += 1; lazy_tags += 1` update of a matched node. -/
def incT : SegT → SegT
  | .leafT a rep lz => .leafT a (rep + 1) (lz + 1)
  | .nodeT a rep lz c0 c1 => .nodeT a (rep + 1) (lz + 1) c0 c1

/-- `insert` from node_selector.py. The recursion descends one tree level per
call; `fuel` bounds the depth (the caller passes `num_shard`, which is ample
for valid configs). After a `pushdown` the node always has both children;
the recursion enters `childs[shard_id % 2]` with `shard_id >> 1` and the
node's replica is then recomputed as the minimum of its children's. -/
def insertT (er : ℕ) : ℕ → SegT → ℕ → ℕ → SegT × Bool
  | 0, t, _, _ => (t, false)
  | fuel + 1, t, n, s =>
    if er ≤ t.rep then (t, false)
    else if t.m = n then (incT t, true)
    else if s % 2 = 0 then
      (SegT.nodeT t.m
        (min (insertT er fuel (pushdownT t).child0 n (s / 2)).1.rep (pushdownT t).child1.rep) 0
        (insertT er fuel (pushdownT t).child0 n (s / 2)).1 (pushdownT t).child1,
       (insertT er fuel (pushdownT t).child0 n (s / 2)).2)
    else
      (SegT.nodeT t.m
        (min (pushdownT t).child0.rep (insertT er fuel (pushdownT t).child1 n (s / 2)).1.rep) 0
        (pushdownT t).child0 (insertT er fuel (pushdownT t).child1 n (s / 2)).1,
       (insertT er fuel (pushdownT t).child1 n (s / 2)).2)

/-- The fresh root built by `select_nodes`: `num_shard = 1`, `replica = 0`,
`lazy_tags = 0`, no children. -/
def rootT : SegT := SegT.leafT 1 0 0

/-- The scan loop of `select_nodes` over the sorted candidates: each node is
offered to the tree with `insert` and appended to the selection when
accepted, and the loop returns `(selected, True)` as soon as the root's
replica reaches the target. Exhaustion yields `([], False)`. -/
def selectLoop (er : ℕ) : SegT → List SNode → List SNode → List SNode × Bool
  | _, _, [] => ([], false)
  | t, acc, nd :: rest =>
    if er ≤ (insertT er nd.config.numShard t nd.config.numShard nd.config.shardId).1.rep then
      (if (insertT er nd.config.numShard t nd.config.numShard nd.config.shardId).2 then
        acc ++ [nd] else acc, true)
    else
      selectLoop er (insertT er nd.config.numShard t nd.config.numShard nd.config.shardId).1
        (if (insertT er nd.config.numShard t nd.config.numShard nd.config.shardId).2 then
          acc ++ [nd] else acc) rest

/-- `select_nodes`: the first component is the returned `(selected, ok)` pair,
the second the final state of the caller's `nodes` list (sorted in place,
except that the `expected_replica == 0` early return happens before the
sort). -/
def selectNodesSt (nodes : List SNode) (er : ℕ) : (List SNode × Bool) × List SNode :=
  if er = 0 then (([], false), nodes)
  else (selectLoop er rootT [] (isort lexLt nodes), isort lexLt nodes)

/-- `check_replica`: builds a fresh wrapper node list from the shard configs
and returns the success flag of `select_nodes` on it. -/
def checkReplicaSt (shardConfigs : List ShardConfig) (er : ℕ) : Bool :=
  ((selectNodesSt (shardConfigs.map (fun c => SNode.mk "" c 0 0)) er).1).2

/-- Number of nodes of `S` that cover segment index `i`, i.e. whose config
satisfies `i % numShard == shardId`. -/
def cov (S : List SNode) (i : ℕ) : ℕ :=
  S.countP (fun nd => decide (i % nd.config.numShard = nd.config.shardId))

/-- Lazy-propagation invariant for a subtree handling the congruence class
`i ≡ r (mod m)`, where `e` is the replica contribution already accounted for
above the subtree: a leaf records a uniform coverage `e + replica` over its
whole class (with `replica = lazy_tags`); an inner node satisfies
`replica = min(children) + lazy_tags` and defers `lazy_tags` to its
children's budgets. -/
def StInv (S : List SNode) : SegT → ℕ → ℕ → ℕ → Prop
  | .leafT a rep lz, m, r, e =>
      a = m ∧ rep = lz ∧ ∀ i, i % m = r → cov S i = e + rep
  | .nodeT a rep lz c0 c1, m, r, e =>
      a = m ∧ rep = min c0.rep c1.rep + lz ∧
      StInv S c0 (2 * m) r (e + lz) ∧ StInv S c1 (2 * m) (r + m) (e + lz)

/-- Depth bound: every materialised inner node has children of modulus at
most `N`. While the candidates are processed in ascending `numShard` order
this holds of the tree with `N` the current candidate's `numShard`, so the
node matched by an `insert` is always childless. -/
def Shallow (N : ℕ) : SegT → Prop
  | .leafT _ _ _ => True
  | .nodeT a _ _ c0 c1 => 2 * a ≤ N ∧ Shallow N c0 ∧ Shallow N c1

theorem StInv_m {S : List SNode} {t : SegT} {m r e : ℕ} (h : StInv S t m r e) :
    t.m = m := by
  cases t with
  | leafT a rep lz => exact h.1
  | nodeT a rep lz c0 c1 => exact h.1

theorem cov_append_single (S : List SNode) (nd : SNode) (i : ℕ) :
    cov (S ++ [nd]) i =
      cov S i + (if i % nd.config.numShard = nd.config.shardId then 1 else 0) := by
  unfold cov
  rw [List.countP_append]
  by_cases h : i % nd.config.numShard = nd.config.shardId
  · rw [if_pos h]
    simp [h]
  · rw [if_neg h]
    simp [h]

theorem mod_two_mul_split {m r i : ℕ} (hm : 0 < m) (h : i % m = r) :
    i % (2 * m) = r ∨ i % (2 * m) = r + m := by
  have hmm : i % (2 * m) % m = i % m := Nat.mod_mod_of_dvd i ⟨2, by ring⟩
  have hlt : i % (2 * m) < 2 * m := Nat.mod_lt i (by omega)
  obtain ⟨q, hq⟩ : ∃ q, i % (2 * m) = m * q + i % (2 * m) % m :=
    ⟨i % (2 * m) / m, (Nat.div_add_mod _ m).symm⟩
  have hq2 : q < 2 := by
    by_contra hq2
    push_neg at hq2
    have hle : 2 * m ≤ m * q := by
      calc 2 * m = m * 2 := by ring
        _ ≤ m * q := Nat.mul_le_mul_left m hq2
    omega
  have hq01 : q = 0 ∨ q = 1 := by omega
  rcases hq01 with h0 | h0 <;> rw [h0] at hq <;> omega

theorem mod_eq_of_mod_two_mul {m r c i : ℕ} (hm : 0 < m) (hr : r < m)
    (h : i % (2 * m) = r + c * m) : i % m = r := by
  have hmm : i % (2 * m) % m = i % m := Nat.mod_mod_of_dvd i ⟨2, by ring⟩
  rw [h] at hmm
  rw [← hmm, Nat.add_mul_mod_self_right, Nat.mod_eq_of_lt hr]

theorem Shallow_mono {N N' : ℕ} (h : N ≤ N') : ∀ t : SegT, Shallow N t → Shallow N' t := by
  intro t
  induction t with
  | leafT a rep lz => intro _; trivial
  | nodeT a rep lz c0 c1 ih0 ih1 =>
    intro hs
    exact ⟨by have := hs.1; omega, ih0 hs.2.1, ih1 hs.2.2⟩

theorem bumpT_rep (k : ℕ) (t : SegT) : (bumpT k t).rep = t.rep + k := by
  cases t <;> rfl

theorem bumpT_m (k : ℕ) (t : SegT) : (bumpT k t).m = t.m := by
  cases t <;> rfl

theorem bumpT_Shallow (k N : ℕ) (t : SegT) (h : Shallow N t) : Shallow N (bumpT k t) := by
  cases t with
  | leafT a rep lz => trivial
  | nodeT a rep lz c0 c1 => exact h

theorem bumpT_StInv (k : ℕ) (t : SegT) (S : List SNode) (m r e : ℕ)
    (h : StInv S t m r (e + k)) : StInv S (bumpT k t) m r e := by
  cases t with
  | leafT a rep lz =>
    obtain ⟨h1, h2, h3⟩ := h
    refine ⟨h1, by omega, ?_⟩
    intro i hi
    have := h3 i hi
    omega
  | nodeT a rep lz c0 c1 =>
    obtain ⟨h1, h2, h3, h4⟩ := h
    refine ⟨h1, ?_, ?_, ?_⟩
    · show rep + k = min c0.rep c1.rep + (lz + k)
      omega
    · show StInv S c0 (2 * m) r (e + (lz + k))
      rw [show e + (lz + k) = e + k + lz from by omega]
      exact h3
    · show StInv S c1 (2 * m) (r + m) (e + (lz + k))
      rw [show e + (lz + k) = e + k + lz from by omega]
      exact h4

theorem pushdownT_shape (t : SegT) :
    ∃ c0 c1, pushdownT t = SegT.nodeT t.m t.rep 0 c0 c1 := by
  cases t with
  | leafT a rep lz => exact ⟨_, _, rfl⟩
  | nodeT a rep lz c0 c1 => exact ⟨_, _, rfl⟩

theorem pushdownT_Shallow (N : ℕ) (t : SegT) (h : Shallow N t)
    (hm : 2 * t.m ≤ N) : Shallow N (pushdownT t) := by
  cases t with
  | leafT a rep lz => exact ⟨hm, trivial, trivial⟩
  | nodeT a rep lz c0 c1 =>
    exact ⟨hm, bumpT_Shallow lz N c0 h.2.1, bumpT_Shallow lz N c1 h.2.2⟩

theorem pushdownT_StInv (t : SegT) (S : List SNode) (m r e : ℕ)
    (hm : 0 < m) (hr : r < m) (h : StInv S t m r e) :
    StInv S (pushdownT t) m r e := by
  cases t with
  | leafT a rep lz =>
    obtain ⟨h1, h2, h3⟩ := h
    refine ⟨h1, by show rep = min lz lz + 0; omega, ?_, ?_⟩
    · refine ⟨by omega, rfl, ?_⟩
      intro i hi
      have him : i % m = r := @mod_eq_of_mod_two_mul m r 0 i hm hr (by omega)
      have := h3 i him
      omega
    · refine ⟨by omega, rfl, ?_⟩
      intro i hi
      have him : i % m = r := @mod_eq_of_mod_two_mul m r 1 i hm hr (by omega)
      have := h3 i him
      omega
  | nodeT a rep lz c0 c1 =>
    obtain ⟨h1, h2, h3, h4⟩ := h
    refine ⟨h1, ?_, ?_, ?_⟩
    · rw [bumpT_rep, bumpT_rep]
      omega
    · exact bumpT_StInv lz c0 S (2 * m) r (e + 0)
        (by rw [show e + 0 + lz = e + lz from by omega]; exact h3)
    · exact bumpT_StInv lz c1 S (2 * m) (r + m) (e + 0)
        (by rw [show e + 0 + lz = e + lz from by omega]; exact h4)

theorem StInv_rep_le_cov (S : List SNode) :
    ∀ (t : SegT) (m r e : ℕ), 0 < m → r < m → StInv S t m r e →
    ∀ i, i % m = r → e + t.rep ≤ cov S i := by
  intro t
  induction t with
  | leafT a rep lz =>
    intro m r e hm hr h i hi
    have := h.2.2 i hi
    show e + rep ≤ cov S i
    omega
  | nodeT a rep lz c0 c1 ih0 ih1 =>
    intro m r e hm hr h i hi
    obtain ⟨h1, h2, h3, h4⟩ := h
    show e + rep ≤ cov S i
    rcases mod_two_mul_split hm hi with hsp | hsp
    · have := ih0 (2 * m) r (e + lz) (by omega) (by omega) h3 i hsp
      omega
    · have := ih1 (2 * m) (r + m) (e + lz) (by omega) (by omega) h4 i hsp
      omega

theorem StInv_append_noncov (nd : SNode) :
    ∀ (t : SegT) (S : List SNode) (m r e : ℕ), 0 < m → r < m →
    (∀ i, i % m = r → ¬ i % nd.config.numShard = nd.config.shardId) →
    StInv S t m r e → StInv (S ++ [nd]) t m r e := by
  intro t
  induction t with
  | leafT a rep lz =>
    intro S m r e hm hr hdis h
    obtain ⟨h1, h2, h3⟩ := h
    refine ⟨h1, h2, ?_⟩
    intro i hi
    rw [cov_append_single, if_neg (hdis i hi)]
    have := h3 i hi
    omega
  | nodeT a rep lz c0 c1 ih0 ih1 =>
    intro S m r e hm hr hdis h
    obtain ⟨h1, h2, h3, h4⟩ := h
    refine ⟨h1, h2, ?_, ?_⟩
    · exact ih0 S (2 * m) r (e + lz) (by omega) (by omega)
        (fun i hi => hdis i (@mod_eq_of_mod_two_mul m r 0 i hm hr (by omega))) h3
    · exact ih1 S (2 * m) (r + m) (e + lz) (by omega) (by omega)
        (fun i hi => hdis i (@mod_eq_of_mod_two_mul m r 1 i hm hr (by omega))) h4

theorem insertT_spec (er : ℕ) (nd : SNode) :
    ∀ fuel : ℕ, ∀ (t : SegT) (k m r s : ℕ) (S : List SNode),
    0 < m → r < m →
    nd.config.numShard = 2 ^ k * m →
    nd.config.shardId = r + s * m →
    nd.config.shardId < nd.config.numShard →
    k < fuel →
    StInv S t m r 0 →
    Shallow nd.config.numShard t →
    (insertT er fuel t nd.config.numShard s).1.m = m ∧
    Shallow nd.config.numShard (insertT er fuel t nd.config.numShard s).1 ∧
    ((insertT er fuel t nd.config.numShard s).2 = true →
      StInv (S ++ [nd]) (insertT er fuel t nd.config.numShard s).1 m r 0 ∧
      ∀ i, i % nd.config.numShard = nd.config.shardId → cov S i < er) ∧
    ((insertT er fuel t nd.config.numShard s).2 = false →
      StInv S (insertT er fuel t nd.config.numShard s).1 m r 0) := by
  intro fuel
  induction fuel with
  | zero =>
    intro t k m r s S hm hr hn hs hv hk hinv hsh
    exact absurd hk (by omega)
  | succ fuel ih =>
    intro t k m r s S hm hr hn hs hv hk hinv hsh
    have htm : t.m = m := StInv_m hinv
    by_cases hrep : er ≤ t.rep
    · have hcomp : insertT er (fuel + 1) t nd.config.numShard s = (t, false) := by
        rw [insertT, if_pos hrep]
      rw [hcomp]
      exact ⟨htm, hsh, fun hcon => Bool.noConfusion hcon, fun _ => hinv⟩
    · by_cases hk0 : k = 0
      · have hnm : nd.config.numShard = m := by
          rw [hn, hk0]
          ring
        cases t with
        | nodeT a rep lz c0 c1 =>
          exfalso
          have ha : a = m := htm
          have hsh1 : 2 * a ≤ nd.config.numShard := hsh.1
          omega
        | leafT a rep lz =>
          have ha : a = m := htm
          have hrep' : ¬ er ≤ rep := hrep
          obtain ⟨-, hrl, hcov⟩ := hinv
          have hs0 : s = 0 := by
            by_contra hs0
            have hge : m ≤ s * m := by
              calc m = 1 * m := by ring
                _ ≤ s * m := Nat.mul_le_mul_right m (by omega)
            omega
          have hsr : nd.config.shardId = r := by
            rw [hs0] at hs
            omega
          have hcomp : insertT er (fuel + 1) (SegT.leafT a rep lz) nd.config.numShard s =
              (SegT.leafT a (rep + 1) (lz + 1), true) := by
            rw [insertT, if_neg hrep,
              if_pos (show (SegT.leafT a rep lz).m = nd.config.numShard from by
                rw [show (SegT.leafT a rep lz).m = a from rfl]
                omega)]
            rfl
          rw [hcomp]
          refine ⟨ha, True.intro, ?_, fun hcon => Bool.noConfusion hcon⟩
          intro _
          constructor
          · refine ⟨ha, by omega, ?_⟩
            intro i hi
            rw [cov_append_single,
              if_pos (show i % nd.config.numShard = nd.config.shardId from by
                rw [hnm, hsr]; exact hi)]
            have := hcov i hi
            omega
          · intro i hi
            rw [hnm, hsr] at hi
            have := hcov i hi
            omega
      · have hk1 : 1 ≤ k := by omega
        have h2k : 2 ≤ 2 ^ k := by
          calc (2 : ℕ) = 2 ^ 1 := by norm_num
            _ ≤ 2 ^ k := Nat.pow_le_pow_right (by norm_num) hk1
        have h2m : 2 * m ≤ nd.config.numShard := by
          rw [hn]
          exact Nat.mul_le_mul_right m h2k
        have hmn : ¬ t.m = nd.config.numShard := by
          rw [htm]
          intro hcon
          omega
        obtain ⟨c0, c1, hp⟩ := pushdownT_shape t
        have hpinv : StInv S (pushdownT t) m r 0 := pushdownT_StInv t S m r 0 hm hr hinv
        have hshp : Shallow nd.config.numShard (pushdownT t) :=
          pushdownT_Shallow _ t hsh (by rw [htm]; exact h2m)
        rw [hp] at hpinv hshp
        obtain ⟨-, hrmin, hc0, hc1⟩ := hpinv
        obtain ⟨-, hshc0, hshc1⟩ := hshp
        have hnn : nd.config.numShard = 2 ^ (k - 1) * (2 * m) := by
          rw [hn, show (2 : ℕ) ^ k = 2 ^ (k - 1) * 2 from by
            rw [← pow_succ]
            congr 1
            omega]
          ring
        have hdvd : 2 * m ∣ nd.config.numShard := ⟨2 ^ (k - 1), by rw [hnn]; ring⟩
        have hdm2 := Nat.div_add_mod s 2
        by_cases hs2 : s % 2 = 0
        · have hsid : nd.config.shardId = r + s / 2 * (2 * m) := by
            have h2q : s = 2 * (s / 2) := by omega
            have hseq : s * m = s / 2 * (2 * m) := by
              calc s * m = 2 * (s / 2) * m := by rw [← h2q]
                _ = s / 2 * (2 * m) := by ring
            rw [hs, hseq]
          obtain ⟨ihm, ihsh, ihtrue, ihfalse⟩ := ih c0 (k - 1) (2 * m) r (s / 2) S
            (by omega) (by omega) hnn hsid hv (by omega) hc0 hshc0
          have hcomp : insertT er (fuel + 1) t nd.config.numShard s =
              (SegT.nodeT t.m
                (min (insertT er fuel c0 nd.config.numShard (s / 2)).1.rep c1.rep) 0
                (insertT er fuel c0 nd.config.numShard (s / 2)).1 c1,
               (insertT er fuel c0 nd.config.numShard (s / 2)).2) := by
            rw [insertT, if_neg hrep, if_neg hmn, if_pos hs2, hp]
            rfl
          rw [hcomp]
          have hdisj1 : ∀ i, i % (2 * m) = r + m →
              ¬ i % nd.config.numShard = nd.config.shardId := by
            intro i hi hcon
            have hmod : i % (2 * m) = nd.config.shardId % (2 * m) := by
              rw [← Nat.mod_mod_of_dvd i hdvd, hcon]
            rw [hsid, Nat.add_mul_mod_self_right,
              Nat.mod_eq_of_lt (show r < 2 * m from by omega)] at hmod
            omega
          refine ⟨htm, ⟨by rw [htm]; exact h2m, ihsh, hshc1⟩, ?_, ?_⟩
          · intro htr
            obtain ⟨ih1, ih2⟩ := ihtrue htr
            refine ⟨⟨htm, by omega, ih1, ?_⟩, ih2⟩
            exact StInv_append_noncov nd c1 S (2 * m) (r + m) (0 + 0)
              (by omega) (by omega) hdisj1 hc1
          · intro hf
            exact ⟨htm, by omega, ihfalse hf, hc1⟩
        · have hsid : nd.config.shardId = (r + m) + s / 2 * (2 * m) := by
            have h2q : s = 2 * (s / 2) + 1 := by omega
            have hseq : s * m = m + s / 2 * (2 * m) := by
              calc s * m = (2 * (s / 2) + 1) * m := by rw [← h2q]
                _ = m + s / 2 * (2 * m) := by ring
            rw [hs, hseq]
            ring
          obtain ⟨ihm, ihsh, ihtrue, ihfalse⟩ := ih c1 (k - 1) (2 * m) (r + m) (s / 2) S
            (by omega) (by omega) hnn hsid hv (by omega) hc1 hshc1
          have hcomp : insertT er (fuel + 1) t nd.config.numShard s =
              (SegT.nodeT t.m
                (min c0.rep (insertT er fuel c1 nd.config.numShard (s / 2)).1.rep) 0
                c0 (insertT er fuel c1 nd.config.numShard (s / 2)).1,
               (insertT er fuel c1 nd.config.numShard (s / 2)).2) := by
            rw [insertT, if_neg hrep, if_neg hmn, if_neg hs2, hp]
            rfl
          rw [hcomp]
          have hdisj0 : ∀ i, i % (2 * m) = r →
              ¬ i % nd.config.numShard = nd.config.shardId := by
            intro i hi hcon
            have hmod : i % (2 * m) = nd.config.shardId % (2 * m) := by
              rw [← Nat.mod_mod_of_dvd i hdvd, hcon]
            rw [hsid, Nat.add_mul_mod_self_right,
              Nat.mod_eq_of_lt (show r + m < 2 * m from by omega)] at hmod
            omega
          refine ⟨htm, ⟨by rw [htm]; exact h2m, hshc0, ihsh⟩, ?_, ?_⟩
          · intro htr
            obtain ⟨ih1, ih2⟩ := ihtrue htr
            refine ⟨⟨htm, by omega, ?_, ih1⟩, ih2⟩
            exact StInv_append_noncov nd c0 S (2 * m) r (0 + 0)
              (by omega) (by omega) hdisj0 hc0
          · intro hf
            exact ⟨htm, by omega, hc0, ihfalse hf⟩

theorem lexLt_trans_false (a b c : SNode) (h1 : lexLt b a = false)
    (h2 : lexLt c b = false) : lexLt c a = false := by
  simp only [lexLt, decide_eq_false_iff_not] at h1 h2 ⊢
  omega

theorem lexLt_asymm (a b : SNode) (h : lexLt a b = true) : lexLt b a = false := by
  simp only [lexLt, decide_eq_true_eq] at h
  simp only [lexLt, decide_eq_false_iff_not]
  omega

theorem lexLt_false_le (a b : SNode) (h : lexLt b a = false) :
    a.config.numShard ≤ b.config.numShard := by
  simp only [lexLt, decide_eq_false_iff_not] at h
  omega

theorem selectLoop_false (er : ℕ) :
    ∀ (pending : List SNode) (t : SegT) (acc : List SNode),
    (selectLoop er t acc pending).2 = false → (selectLoop er t acc pending).1 = [] := by
  intro pending
  induction pending with
  | nil =>
    intro t acc _
    rfl
  | cons nd rest ihp =>
    intro t acc h
    rw [selectLoop] at h ⊢
    by_cases hc : er ≤
        (insertT er nd.config.numShard t nd.config.numShard nd.config.shardId).1.rep
    · rw [if_pos hc] at h
      exact Bool.noConfusion h
    · rw [if_neg hc] at h ⊢
      exact ihp _ _ h

theorem selectLoop_spec (er : ℕ) :
    ∀ (pending : List SNode) (t : SegT) (acc : List SNode),
    StInv acc t 1 0 0 →
    (∀ i, cov acc i ≤ er) →
    (∀ nd ∈ pending, isValidConfig nd.config) →
    (∀ nd ∈ pending, Shallow nd.config.numShard t) →
    pending.Pairwise (fun a b => a.config.numShard ≤ b.config.numShard) →
    (∀ x ∈ (selectLoop er t acc pending).1, x ∈ acc ∨ x ∈ pending) ∧
    ((selectLoop er t acc pending).2 = true →
      ∀ i, cov (selectLoop er t acc pending).1 i = er) := by
  intro pending
  induction pending with
  | nil =>
    intro t acc hinv hsat hval hsh hpw
    constructor
    · intro x hx
      exact absurd hx (List.not_mem_nil x)
    · intro h
      exact Bool.noConfusion h
  | cons nd rest ihp =>
    intro t A hinv hsat hval hsh hpw
    obtain ⟨hh, ht⟩ := List.pairwise_cons.mp hpw
    have hvnd : isValidConfig nd.config := hval nd (List.mem_cons_self nd rest)
    obtain ⟨hpos, hland, hsid⟩ := hvnd
    obtain ⟨k, hk⟩ := exists_pow_of_land nd.config.numShard hpos hland
    obtain ⟨ihm, ihshal, ihtrue, ihfalse⟩ := insertT_spec er nd nd.config.numShard t k 1 0
      nd.config.shardId A (by omega) (by omega) (by rw [hk]; ring) (by ring) hsid
      (by rw [hk]; exact Nat.lt_two_pow k) hinv (hsh nd (List.mem_cons_self nd rest))
    rw [selectLoop]
    set q := insertT er nd.config.numShard t nd.config.numShard nd.config.shardId with hq
    have hinv' : StInv (if q.2 then A ++ [nd] else A) q.1 1 0 0 := by
      by_cases hqq : q.2 = true
      · rw [if_pos hqq]
        exact (ihtrue hqq).1
      · rw [if_neg hqq]
        exact ihfalse (by simpa using hqq)
    have hsat' : ∀ i, cov (if q.2 then A ++ [nd] else A) i ≤ er := by
      intro i
      by_cases hqq : q.2 = true
      · rw [if_pos hqq, cov_append_single]
        obtain ⟨-, hlt⟩ := ihtrue hqq
        by_cases hcv : i % nd.config.numShard = nd.config.shardId
        · rw [if_pos hcv]
          have := hlt i hcv
          omega
        · rw [if_neg hcv]
          have := hsat i
          omega
      · rw [if_neg hqq]
        exact hsat i
    by_cases hstop : er ≤ q.1.rep
    · rw [if_pos hstop]
      constructor
      · show ∀ x ∈ (if q.2 then A ++ [nd] else A), x ∈ A ∨ x ∈ nd :: rest
        intro x hx
        by_cases hqq : q.2 = true
        · rw [if_pos hqq] at hx
          rcases List.mem_append.mp hx with h1 | h2
          · exact Or.inl h1
          · exact Or.inr (by rw [List.mem_singleton.mp h2]; exact List.mem_cons_self nd rest)
        · rw [if_neg hqq] at hx
          exact Or.inl hx
      · intro _ i
        show cov (if q.2 then A ++ [nd] else A) i = er
        have hge : 0 + q.1.rep ≤ cov (if q.2 then A ++ [nd] else A) i :=
          StInv_rep_le_cov (if q.2 then A ++ [nd] else A) q.1 1 0 0 (by omega) (by omega)
            hinv' i (Nat.mod_one i)
        have hle := hsat' i
        omega
    · rw [if_neg hstop]
      obtain ⟨ihr1, ihr2⟩ := ihp q.1 (if q.2 then A ++ [nd] else A) hinv' hsat'
        (fun x hx => hval x (List.mem_cons_of_mem nd hx))
        (fun x hx => Shallow_mono (hh x hx) q.1 ihshal) ht
      constructor
      · intro x hx
        rcases ihr1 x hx with hA' | hrest
        · by_cases hqq : q.2 = true
          · rw [if_pos hqq] at hA'
            rcases List.mem_append.mp hA' with h1 | h2
            · exact Or.inl h1
            · exact Or.inr (by rw [List.mem_singleton.mp h2]; exact List.mem_cons_self nd rest)
          · rw [if_neg hqq] at hA'
            exact Or.inl hA'
        · exact Or.inr (List.mem_cons_of_mem nd hrest)
      · exact ihr2

/-- C2: when `select_nodes(nodes, expected_replica)` returns `(S, True)` on
candidates with valid shard configs, the selection `S` covers every segment
index `i` with at least `expected_replica` nodes satisfying
`i % numShard == shardId`, and `S` is minimal: no proper sub-collection of
`S` still covers every index `expected_replica` times (coverage at success
is in fact exactly `expected_replica` everywhere, so dropping any node
starves some index). -/
theorem selectNodes_minimal_coverage (nodes : List SNode) (er : ℕ) (S : List SNode)
    (hval : ∀ nd ∈ nodes, isValidConfig nd.config)
    (hsel : (selectNodesSt nodes er).1 = (S, true)) :
    (∀ i, er ≤ cov S i) ∧
    (∀ T, T.Subperm S → T.length < S.length → ∃ i, cov T i < er) := by
  by_cases her : er = 0
  · exfalso
    unfold selectNodesSt at hsel
    rw [if_pos her] at hsel
    have := congrArg Prod.snd hsel
    simp at this
  · unfold selectNodesSt at hsel
    rw [if_neg her] at hsel
    have hperm := isort_perm lexLt nodes
    have hvs : ∀ nd ∈ isort lexLt nodes, isValidConfig nd.config :=
      fun nd hnd => hval nd (hperm.mem_iff.mp hnd)
    have hpw0 : (isort lexLt nodes).Pairwise (fun a b => lexLt b a = false) :=
      isort_pairwise lexLt lexLt_trans_false lexLt_asymm nodes
    have hpw : (isort lexLt nodes).Pairwise
        (fun a b => a.config.numShard ≤ b.config.numShard) :=
      List.Pairwise.imp (fun h => lexLt_false_le _ _ h) hpw0
    have hinit : StInv ([] : List SNode) rootT 1 0 0 := ⟨rfl, rfl, fun i _ => rfl⟩
    obtain ⟨hmem, htrue⟩ := selectLoop_spec er (isort lexLt nodes) rootT []
      hinit (fun i => by simp [cov]) hvs (fun nd _ => True.intro) hpw
    have h1 : (selectLoop er rootT [] (isort lexLt nodes)).1 = S := congrArg Prod.fst hsel
    have h2 : (selectLoop er rootT [] (isort lexLt nodes)).2 = true := congrArg Prod.snd hsel
    have hcov : ∀ i, cov S i = er := by
      intro i
      rw [← h1]
      exact htrue h2 i
    refine ⟨fun i => (hcov i).ge, ?_⟩
    intro T hsub hlen
    obtain ⟨l, hlT, hlS⟩ := hsub
    obtain ⟨u, hSu⟩ := hlS.exists_perm_append
    have hlenl : l.length = T.length := hlT.length_eq
    have hlenS : S.length = l.length + u.length := by
      have := hSu.length_eq
      simpa using this
    have hune : u ≠ [] := by
      intro hnil
      rw [hnil] at hlenS
      simp at hlenS
      omega
    obtain ⟨c, hcu⟩ := List.exists_mem_of_ne_nil u hune
    have hcS : c ∈ S := hSu.mem_iff.mpr (List.mem_append.mpr (Or.inr hcu))
    have hcsorted : c ∈ isort lexLt nodes := by
      rcases hmem c (by rw [h1]; exact hcS) with hnil | hs
      · exact absurd hnil (List.not_mem_nil c)
      · exact hs
    obtain ⟨hcpos, -, hcs⟩ := hval c (hperm.mem_iff.mp hcsorted)
    refine ⟨c.config.shardId, ?_⟩
    have hS' : cov S c.config.shardId = cov T c.config.shardId + cov u c.config.shardId := by
      unfold cov
      calc S.countP (fun nd => decide (c.config.shardId % nd.config.numShard = nd.config.shardId)) =
          (l ++ u).countP (fun nd => decide (c.config.shardId % nd.config.numShard = nd.config.shardId)) :=
            hSu.countP_eq _
        _ = l.countP (fun nd => decide (c.config.shardId % nd.config.numShard = nd.config.shardId)) +
            u.countP (fun nd => decide (c.config.shardId % nd.config.numShard = nd.config.shardId)) :=
            List.countP_append _ _ _
        _ = T.countP (fun nd => decide (c.config.shardId % nd.config.numShard = nd.config.shardId)) +
            u.countP (fun nd => decide (c.config.shardId % nd.config.numShard = nd.config.shardId)) := by
            rw [hlT.countP_eq _]
    have hu1 : 0 < cov u c.config.shardId := by
      unfold cov
      rw [List.countP_pos]
      exact ⟨c, hcu, by simpa using Nat.mod_eq_of_lt hcs⟩
    have := hcov c.config.shardId
    omega

/-- Witness for C2 at a single candidate with `numShard = 1`, `shardId = 0`
and `expected_replica = 1`: it is selected, covers every index once, and the
empty proper subset covers nothing. -/
theorem selectNodes_minimal_coverage_witness :
    (∀ nd ∈ ([⟨"n", ⟨1, 0⟩, 0, 0⟩] : List SNode), isValidConfig nd.config) ∧
    ((selectNodesSt ([⟨"n", ⟨1, 0⟩, 0, 0⟩] : List SNode) 1).1 =
      ([⟨"n", ⟨1, 0⟩, 0, 0⟩], true)) ∧
    ((∀ i, 1 ≤ cov ([⟨"n", ⟨1, 0⟩, 0, 0⟩] : List SNode) i) ∧
     (∀ T, T.Subperm ([⟨"n", ⟨1, 0⟩, 0, 0⟩] : List SNode) →
       T.length < ([⟨"n", ⟨1, 0⟩, 0, 0⟩] : List SNode).length → ∃ i, cov T i < 1)) :=
  ⟨by decide, by rfl,
    selectNodes_minimal_coverage [⟨"n", ⟨1, 0⟩, 0, 0⟩] 1 [⟨"n", ⟨1, 0⟩, 0, 0⟩]
      (by decide) (by rfl)⟩

/-- C9: `select_nodes` returns `([], False)` when `expected_replica == 0`
(before any mutation of the list), and whenever it reports failure its
returned list is empty. The last two conjuncts exhibit a run in which a
candidate is accepted during the scan (`insert` returns `True`) and the scan
then exhausts the candidates, so the partial selection is discarded and
`([], False)` is returned. -/
theorem selectNodes_failure_shape :
    (∀ nodes : List SNode, selectNodesSt nodes 0 = (([], false), nodes)) ∧
    (∀ (nodes : List SNode) (er : ℕ), ((selectNodesSt nodes er).1).2 = false →
      ((selectNodesSt nodes er).1).1 = []) ∧
    (insertT 1 2 rootT 2 0).2 = true ∧
    (selectNodesSt ([⟨"", ⟨2, 0⟩, 0, 0⟩] : List SNode) 1).1 = ([], false) := by
  refine ⟨?_, ?_, ?_, ?_⟩
  · intro nodes
    unfold selectNodesSt
    rw [if_pos rfl]
  · intro nodes er h
    by_cases h0 : er = 0
    · unfold selectNodesSt
      rw [if_pos h0]
    · unfold selectNodesSt at h ⊢
      rw [if_neg h0] at h ⊢
      exact selectLoop_false er _ _ _ h
  · rfl
  · rfl

/-- Witness for C9: the `expected_replica = 0` early return on a concrete
two-node list, and a failure run whose exposed selection is empty. -/
theorem selectNodes_failure_shape_witness :
    (selectNodesSt ([⟨"b", ⟨2, 1⟩, 0, 0⟩, ⟨"a", ⟨1, 0⟩, 0, 0⟩] : List SNode) 0 =
      (([], false), [⟨"b", ⟨2, 1⟩, 0, 0⟩, ⟨"a", ⟨1, 0⟩, 0, 0⟩])) ∧
    ((selectNodesSt ([⟨"", ⟨2, 0⟩, 0, 0⟩] : List SNode) 1).1).2 = false ∧
    ((selectNodesSt ([⟨"", ⟨2, 0⟩, 0, 0⟩] : List SNode) 1).1).1 = [] :=
  ⟨selectNodes_failure_shape.1 _, by rfl, selectNodes_failure_shape.2.1 _ 1 (by rfl)⟩

/-- C10 counterexample: with `expected_replica = 0`, `select_nodes` returns
before its in-place sort, so the caller's list keeps its original order and
is not permuted into ascending `(numShard, shardId)` order. -/
theorem selectNodes_zero_skips_sort :
    (selectNodesSt [(⟨"b", ⟨2, 1⟩, 0, 0⟩ : SNode), ⟨"a", ⟨1, 0⟩, 0, 0⟩] 0).2 =
      [(⟨"b", ⟨2, 1⟩, 0, 0⟩ : SNode), ⟨"a", ⟨1, 0⟩, 0, 0⟩] ∧
    ¬ ((selectNodesSt [(⟨"b", ⟨2, 1⟩, 0, 0⟩ : SNode), ⟨"a", ⟨1, 0⟩, 0, 0⟩] 0).2).Pairwise
        (fun a b => lexLt b a = false) :=
  ⟨rfl, by decide⟩

/-- C10 amended: for `expected_replica > 0` the caller's list is permuted in
place into ascending `(numShard, shardId)` order with the node elements
themselves unchanged (the final list is a permutation of the input, sorted
under the key order); for `expected_replica = 0` the early return leaves the
list untouched; and `check_replica` runs `select_nodes` on a freshly built
wrapper list derived from the shard configs, so the configs never see the
in-place sort. -/
theorem selectNodes_frame_spec (nodes : List SNode) (er : ℕ) (her : 0 < er) :
    (selectNodesSt nodes er).2.Perm nodes ∧
    ((selectNodesSt nodes er).2).Pairwise (fun a b => lexLt b a = false) ∧
    (∀ l : List SNode, (selectNodesSt l 0).2 = l) ∧
    (∀ (cfgs : List ShardConfig) (k : ℕ),
      checkReplicaSt cfgs k =
        ((selectNodesSt (cfgs.map (fun c => SNode.mk "" c 0 0)) k).1).2) := by
  refine ⟨?_, ?_, ?_, ?_⟩
  · unfold selectNodesSt
    rw [if_neg (by omega)]
    exact isort_perm lexLt nodes
  · unfold selectNodesSt
    rw [if_neg (by omega)]
    exact isort_pairwise lexLt lexLt_trans_false lexLt_asymm nodes
  · intro l
    unfold selectNodesSt
    rw [if_pos rfl]
  · intro cfgs k
    rfl

/-- Witness for C10's amended statement at a concrete unsorted two-node list
with `expected_replica = 1`. -/
theorem selectNodes_frame_spec_witness :
    ((0 : ℕ) < 1) ∧
    ((selectNodesSt [(⟨"b", ⟨2, 1⟩, 0, 0⟩ : SNode), ⟨"a", ⟨1, 0⟩, 0, 0⟩] 1).2.Perm
       [(⟨"b", ⟨2, 1⟩, 0, 0⟩ : SNode), ⟨"a", ⟨1, 0⟩, 0, 0⟩] ∧
     ((selectNodesSt [(⟨"b", ⟨2, 1⟩, 0, 0⟩ : SNode), ⟨"a", ⟨1, 0⟩, 0, 0⟩] 1).2).Pairwise
       (fun a b => lexLt b a = false) ∧
     (∀ l : List SNode, (selectNodesSt l 0).2 = l) ∧
     (∀ (cfgs : List ShardConfig) (k : ℕ),
       checkReplicaSt cfgs k =
         ((selectNodesSt (cfgs.map (fun c => SNode.mk "" c 0 0)) k).1).2)) :=
  ⟨by norm_num, selectNodes_frame_spec [⟨"b", ⟨2, 1⟩, 0, 0⟩, ⟨"a", ⟨1, 0⟩, 0, 0⟩] 1
    (by norm_num)⟩

end ZgStorage
